import Mathlib

/-!
Verification of the Streaming Analysis Orchestrator of `resume_consultant`.

Shallow embedding of `backend/app/services/workflow/executor.py`,
`backend/app/prompts/__init__.py` and the runtime-registry portions of
`backend/app/api/chat.py`.  The LLM provider (Token Stream Adapter) is an
external collaborator and is modelled as an arbitrary function from the
message list it is called with to the fragments it yields (plus an optional
failure raised after those fragments).
-/

namespace ResumeConsultant

/-- A role-tagged chat message handed to the LLM provider
(`messages` in `WorkflowExecutor.execute_step_stream`). -/
structure ChatMsg where
  role : String
  content : String
deriving DecidableEq, Repr

/-- One step of the workflow (`WorkflowStep` dataclass in executor.py). -/
structure WorkflowStep where
  step_number : Nat
  title : String
  description : String
deriving DecidableEq, Repr

/-- The five fixed steps (`WORKFLOW_STEPS` in executor.py). -/
def WORKFLOW_STEPS : List WorkflowStep :=
  [⟨1, "第一印象与初步诊断", "目标定位判断与30秒定论"⟩,
   ⟨2, "地毯式深度审计与指导", "整体审计与模块化审计"⟩,
   ⟨3, "战略性修改蓝图", "提供清晰、可执行的修改计划"⟩,
   ⟨4, "重构与展示", "生成修改后的简历范本"⟩,
   ⟨5, "最终裁决与行动清单", "总结评价与下一步行动"⟩]

/-- The SSE events produced by the orchestrator.  `step_start` carries
title/description when emitted by the executor but only a step number when
synthesized by the reconnect gateway, hence the `Option` fields; `step_end`
is emitted by the executor without a `content` field and is patched by
`_run_workflow_background`, hence the `Option`. -/
inductive Event where
  | step_start (step : Nat) (title : Option String) (description : Option String)
  | content (step : Nat) (content : String)
  | step_end (step : Nat) (content : Option String)
  | complete
  | stopped
  | error (message : String)
  | ping
deriving DecidableEq, Repr

/-- Result of fully iterating one `chat_stream` call of the provider: the
fragments it yielded in order, and `some msg` if it raised after them. -/
structure StreamOutcome where
  chunks : List String
  failure : Option String
deriving DecidableEq, Repr

/-- The Token Stream Adapter: an arbitrary behaviour mapping the messages of
one call to that call's outcome. -/
abbrev Adapter := List ChatMsg → StreamOutcome

/-- `build_user_message` from `app/prompts/__init__.py`.  Mirrors Python
truthiness: an empty `job_description` string and an empty or absent
`previous_results` list take the falsy branch. -/
def build_user_message (resume_text : String) (job_description : Option String)
    (previous_results : Option (List String)) : String :=
  let p1 := "<user_resume>\n" ++ resume_text ++ "\n</user_resume>"
  let p2 :=
    match job_description with
    | some jd =>
        if jd.isEmpty then "<job_description>\n未提供岗位JD\n</job_description>"
        else "<job_description>\n" ++ jd ++ "\n</job_description>"
    | none => "<job_description>\n未提供岗位JD\n</job_description>"
  let rest :=
    match previous_results with
    | some rs =>
        if rs.isEmpty then []
        else ["<pre-process_results>\n" ++ String.intercalate "\n\n" rs ++
              "\n</pre-process_results>"]
    | none => []
  String.intercalate "\n\n" ([p1, p2] ++ rest)

/-- `full_response` accumulation of `execute_step_stream`
(`full_response += chunk` over the stream). -/
def concatChunks (chunks : List String) : String := chunks.foldl (· ++ ·) ""

/-- The two messages built by `execute_step_stream` for one step: the step's
system prompt and the user message carrying resume, JD and previous results
(`self.results if self.results else None`). -/
def stepMessages (load_prompt : Nat → String) (resume_text : String)
    (job_description : Option String) (results : List String)
    (step : WorkflowStep) : List ChatMsg :=
  [⟨"system", load_prompt step.step_number⟩,
   ⟨"user", build_user_message resume_text job_description
      (if results.isEmpty then none else some results)⟩]

/-- The event block `execute_all_stream` yields for one successfully
completed step: `step_start`, one `content` per fragment, `step_end`
(without a content field). -/
def stepBlock (step : WorkflowStep) (chunks : List String) : List Event :=
  Event.step_start step.step_number (some step.title) (some step.description) ::
    (chunks.map (Event.content step.step_number) ++ [Event.step_end step.step_number none])

/-- `WorkflowExecutor.execute_all_stream`, recursing over the remaining steps
while threading `self.results`.  Returns the events yielded before the
generator finished or raised, `some msg` if the adapter raised mid-step, and
the log of `chat_stream` calls made.  On a failed step the `step_start` and
the fragments yielded before the failure have been emitted, but no
`step_end`; a successful step appends its `full_response` to `results`. -/
def execute_steps (llm : Adapter) (load_prompt : Nat → String)
    (resume_text : String) (job_description : Option String) :
    List WorkflowStep → List String → List Event × Option String × List (List ChatMsg)
  | [], _ => ([Event.complete], none, [])
  | step :: rest, results =>
    let messages := stepMessages load_prompt resume_text job_description results step
    let out := llm messages
    match out.failure with
    | some msg =>
        (Event.step_start step.step_number (some step.title) (some step.description) ::
           out.chunks.map (Event.content step.step_number),
         some msg, [messages])
    | none =>
        let r := execute_steps llm load_prompt resume_text job_description rest
          (results ++ [concatChunks out.chunks])
        (stepBlock step out.chunks ++ r.1, r.2.1, messages :: r.2.2)

/-- Entry point of the executor: all five fixed steps, empty `results`. -/
def execute_all_stream (llm : Adapter) (load_prompt : Nat → String)
    (resume_text : String) (job_description : Option String) :
    List Event × Option String × List (List ChatMsg) :=
  execute_steps llm load_prompt resume_text job_description WORKFLOW_STEPS []

/-! ### The background workflow task (`_run_workflow_background` in chat.py) -/

/-- The per-run snapshot fields of `_AnalysisRuntime` that the background task
mutates while consuming executor events. -/
structure RuntimeSnap where
  current_step : Option Nat
  current_content : String
  status : String
deriving DecidableEq, Repr

/-- One persisted `Message` row (conversation id fixed to the run). -/
structure MsgRow where
  role : String
  content : String
  step : Option Nat
deriving DecidableEq, Repr

/-- One iteration of the event loop in `_run_workflow_background`: update the
runtime snapshot, patch the `step_end` content from the accumulated text when
the event's own content is falsy, persist the step's final text when
non-empty, and return the event as broadcast. -/
def processEvent (rt : RuntimeSnap) (e : Event) : RuntimeSnap × Event × Option MsgRow :=
  match e with
  | .step_start s _ _ => ({rt with current_step := some s, current_content := ""}, e, none)
  | .content _ c => ({rt with current_content := rt.current_content ++ c}, e, none)
  | .complete => ({rt with status := "completed"}, e, none)
  | .step_end s c =>
      let final_content :=
        match c with
        | some t => if t.isEmpty then rt.current_content else t
        | none => rt.current_content
      (rt, Event.step_end s (some final_content),
       if final_content.isEmpty then none else some ⟨"assistant", final_content, some s⟩)
  | _ => (rt, e, none)

/-- The event loop folded over the executor's events: final snapshot, events
broadcast in order, rows persisted in order. -/
def processEvents (rt : RuntimeSnap) : List Event → RuntimeSnap × List Event × List MsgRow
  | [] => (rt, [], [])
  | e :: es =>
      let r1 := processEvent rt e
      let r2 := processEvents r1.1 es
      (r2.1, r1.2.1 :: r2.2.1,
       (match r1.2.2 with | some row => [row] | none => []) ++ r2.2.2)

/-- `_run_workflow_background` without cancellation: runs the executor,
processes every yielded event, and on an adapter failure takes the
`except Exception` path — status becomes `error` and one `error` event
carrying the message is broadcast after the events already delivered. -/
def run_workflow_background (llm : Adapter) (load_prompt : Nat → String)
    (resume_text : String) (job_description : Option String) :
    RuntimeSnap × List Event × List MsgRow :=
  let r := execute_all_stream llm load_prompt resume_text job_description
  let p := processEvents ⟨none, "", "running"⟩ r.1
  match r.2.1 with
  | none => p
  | some msg => ({p.1 with status := "error"}, p.2.1 ++ [Event.error msg], p.2.2)

/-! ### The runtime registry (`_runtimes` in chat.py) -/

/-- `_AnalysisRuntime` as stored in the registry; `listeners` is the set of
subscriber queues, identified here by queue ids; the task handle is implicit.
The registry itself is the list of registered runtimes (the dict's values,
keyed by their distinct `conversation_id`s). -/
structure Runtime where
  user_id : Nat
  conversation_id : Nat
  started_at : Nat
  status : String
  listeners : List Nat
  current_step : Option Nat
  current_content : String
deriving DecidableEq, Repr

/-- `_runtimes.get(conversation_id)`. -/
def findRuntime (reg : List Runtime) (cid : Nat) : Option Runtime :=
  reg.find? (fun r => r.conversation_id == cid)

/-- The owner's runtimes as collected by `analyze_resume`:
`[r for r in _runtimes.values() if r.user_id == current_user.id]` —
note: no filter on `status`. -/
def ownerRuntimes (reg : List Runtime) (uid : Nat) : List Runtime :=
  reg.filter (fun r => r.user_id == uid)

/-- `sorted(running, key=lambda r: r.started_at)[0]`: the first element with
minimal `started_at` (Python's sort is stable, so ties keep earlier order). -/
def oldestRuntime (rs : List Runtime) : Option Runtime :=
  rs.foldl (fun acc r =>
    match acc with
    | none => some r
    | some b => if r.started_at < b.started_at then some r else some b) none

/-- The eviction `while` loop of `analyze_resume` (chat.py lines 383-396),
embedded with explicit fuel (each iteration strictly shrinks the registry,
so `reg.length` fuel suffices).  Returns the registry after eviction, the
evicted runtimes in eviction order, and the `stopped` notifications
delivered non-blockingly to the evicted runtimes' listeners. -/
def evictLoop (uid limit : Nat) :
    Nat → List Runtime → List Runtime × List Runtime × List (Nat × Event)
  | 0, reg => (reg, [], [])
  | fuel + 1, reg =>
    let running := ownerRuntimes reg uid
    if limit ≤ running.length then
      match oldestRuntime running with
      | none => (reg, [], [])
      | some oldest =>
          let r := evictLoop uid limit fuel
            (reg.filter (fun r => r.conversation_id ≠ oldest.conversation_id))
          (r.1, oldest :: r.2.1,
           oldest.listeners.map (fun q => (q, Event.stopped)) ++ r.2.2)
    else (reg, [], [])

/-- The admission controller's concurrency-management block. -/
def admission_evict (reg : List Runtime) (uid limit : Nat) :
    List Runtime × List Runtime × List (Nat × Event) :=
  evictLoop uid limit reg.length reg

/-- Modelled from the spec (§4.3): the eviction loop as the claim states it,
counting and evicting only among the owner's Runtimes with
`status = running`.  Used only to compare against the code's behaviour. -/
def claimEvictLoop (uid limit : Nat) :
    Nat → List Runtime → List Runtime × List Runtime × List (Nat × Event)
  | 0, r => (r, [], [])
  | fuel + 1, r =>
    let running := (ownerRuntimes r uid).filter (fun x => x.status == "running")
    if limit ≤ running.length then
      match oldestRuntime running with
      | none => (r, [], [])
      | some oldest =>
          let t := claimEvictLoop uid limit fuel
            (r.filter (fun x => x.conversation_id ≠ oldest.conversation_id))
          (t.1, oldest :: t.2.1,
           oldest.listeners.map (fun q => (q, Event.stopped)) ++ t.2.2)
    else (r, [], [])

/-- Modelled from the spec (§4.3): admission as the claim describes it. -/
def claim_admission_evict (reg : List Runtime) (uid limit : Nat) :
    List Runtime × List Runtime × List (Nat × Event) :=
  claimEvictLoop uid limit reg.length reg

/-- `_cleanup_runtime`: keeps a running runtime; removes a terminal runtime
only when it has no listeners left. -/
def cleanup_runtime (reg : List Runtime) (cid : Nat) : List Runtime :=
  match findRuntime reg cid with
  | none => reg
  | some rt =>
      if rt.status == "running" then reg
      else if rt.listeners.isEmpty then
        reg.filter (fun r => r.conversation_id ≠ cid)
      else reg

/-- `runtime.listeners.discard(queue)` under the registry lock. -/
def discard_listener (reg : List Runtime) (cid q : Nat) : List Runtime :=
  reg.map (fun r =>
    if r.conversation_id == cid then
      {r with listeners := r.listeners.filter (fun x => x ≠ q)}
    else r)

/-- The `finally` block of a viewer's `generate_stream`: discard the queue
from the runtime's listener set, then run `_cleanup_runtime`. -/
def unsubscribe (reg : List Runtime) (cid q : Nat) : List Runtime :=
  cleanup_runtime (discard_listener reg cid q) cid

/-! ### Stop requests and the stop marker (`stop_conversation`, `_ensure_stop_marker`) -/

def STOP_MARKER : String := "[STOPPED]"

/-- The durable message store of one conversation, in insertion order. -/
abbrev MsgDb := List MsgRow

/-- Predicate of the `_ensure_stop_marker` existence query. -/
def isStopMarkerRow (m : MsgRow) : Bool :=
  m.role == "system" && m.content == STOP_MARKER

/-- The select in `_ensure_stop_marker` found a marker row. -/
def hasStopMarker (db : MsgDb) : Bool := db.any isStopMarkerRow

/-- Number of persisted stop-marker rows. -/
def markerCount (db : MsgDb) : Nat := (db.filter isStopMarkerRow).length

/-- `_ensure_stop_marker`: insert the marker only when none exists. -/
def ensure_stop_marker (db : MsgDb) : MsgDb :=
  if hasStopMarker db then db else db ++ [⟨"system", STOP_MARKER, none⟩]

/-- The query in `stop_conversation` (and `/history`) deciding that the final
step is durably recorded: an assistant message with `step == 5` exists. -/
def finalStepRecorded (db : MsgDb) : Bool :=
  db.any (fun m => m.role == "assistant" && m.step == some 5)

/-- Outcome of one `stop_conversation` call: the database afterwards, the
response status string, and whether `task.cancel()` was invoked. -/
structure StopOutcome where
  db : MsgDb
  response : String
  cancelled : Bool
deriving DecidableEq, Repr

/-- `stop_conversation` (chat.py lines 539-571) for an existing conversation;
`none` models the 404 on a missing or foreign conversation. -/
def stop_conversation (conversationOwned : Bool) (db : MsgDb)
    (runtime : Option Runtime) (uid : Nat) : Option StopOutcome :=
  if conversationOwned then
    if finalStepRecorded db then some ⟨db, "already_completed", false⟩
    else
      let cancelled :=
        match runtime with
        | some rt => rt.user_id == uid && rt.status == "running"
        | none => false
      some ⟨ensure_stop_marker db, "success", cancelled⟩
  else none

/-! ### Reconnect / replay gateway (`stream_conversation`) -/

/-- Successful attach: the registry with the new queue added to the runtime's
listener set, and the replay snapshot captured under the registry lock. -/
structure AttachResult where
  reg : List Runtime
  replay_step : Option Nat
  replay_content : String
deriving DecidableEq, Repr

/-- The lock-guarded head of `stream_conversation`: 404 (no listener added,
no side effect) when no runtime exists for the id or the caller is not its
owner; otherwise add the queue and capture `(current_step, current_content)`. -/
def stream_conversation_attach (reg : List Runtime) (cid uid newq : Nat) :
    Option AttachResult :=
  match findRuntime reg cid with
  | none => none
  | some rt =>
      if rt.user_id == uid then
        some ⟨reg.map (fun r =>
                if r.conversation_id == cid then
                  {r with listeners := r.listeners ++ [newq]}
                else r),
              rt.current_step, rt.current_content⟩
      else none

/-- The synthesized replay section of the reconnect `generate_stream`:
an initial `ping`, then — when a step is in progress (Python truthiness of
`replay_step`) — a bare `step_start` and, if the accumulated text is
non-empty, one coalesced `content` event. -/
def replay_events (replay_step : Option Nat) (replay_content : String) : List Event :=
  Event.ping ::
    (match replay_step with
     | some s =>
         if s = 0 then []
         else
           Event.step_start s none none ::
             (if replay_content.isEmpty then [] else [Event.content s replay_content])
     | none => [])

/-- The whole reconnect stream: replay first, live broadcast events after. -/
def reconnect_stream (replay_step : Option Nat) (replay_content : String)
    (live : List Event) : List Event :=
  replay_events replay_step replay_content ++ live

/-! ### The status state machine of one Runtime

A small-step model of every code path of chat.py that can touch one run's
`status`, its registry entry, or its pending cancellation.  `phase` is the
background task's position: still consuming executor events (`loop`), past
the `complete` event but not yet returned (`postComplete`), or finished
(`done`).  Cooperative asyncio cancellation is modelled by `cancelPending`:
`task.cancel()` sets it (only the guarded call sites do), and the
`CancelledError` is delivered at the task's current suspension point before
the task can take any further step of its own — hence every task transition
requires `cancelPending = false`. -/

inductive Phase | loop | postComplete | done
deriving DecidableEq, Repr

structure RunState where
  status : String
  phase : Phase
  inRegistry : Bool
  cancelPending : Bool
  listenerCount : Nat
deriving DecidableEq, Repr

/-- The operations of chat.py that can interleave with one run. -/
inductive RunOp
  | completeEvent   -- the task processes the executor's `complete` event
  | errorRaise      -- the executor raises; `except Exception` handler
  | cancelDelivery  -- `except asyncio.CancelledError` handler
  | taskFinish      -- the task returns after `complete`
  | stopRequest     -- `stop_conversation`: cancel only when status is running
  | evictOp         -- admission eviction: cancel unconditionally, pop entry
  | cleanupOp       -- `_cleanup_runtime`
  | attachListener  -- `stream_conversation` adds a queue
  | detachListener  -- a viewer's `finally` discards its queue
deriving DecidableEq, Repr

/-- The initial runtime created by `analyze_resume`. -/
def runInit : RunState :=
  { status := "running", phase := Phase.loop, inRegistry := true
    cancelPending := false, listenerCount := 1 }

/-- One atomic (lock-guarded) step of the system.  Handlers write `status`
only when `_runtimes.get(conversation_id)` still finds the entry. -/
def runStep (s : RunState) : RunOp → RunState
  | .completeEvent =>
      if s.phase = Phase.loop ∧ s.cancelPending = false then
        { s with status := if s.inRegistry then "completed" else s.status
                 phase := Phase.postComplete }
      else s
  | .errorRaise =>
      if s.phase = Phase.loop ∧ s.cancelPending = false then
        { s with status := if s.inRegistry then "error" else s.status
                 phase := Phase.done }
      else s
  | .cancelDelivery =>
      if s.cancelPending = true ∧ s.phase ≠ Phase.done then
        { s with status := if s.inRegistry then "stopped" else s.status
                 phase := Phase.done, cancelPending := false }
      else s
  | .taskFinish =>
      if s.phase = Phase.postComplete ∧ s.cancelPending = false then
        { s with phase := Phase.done }
      else s
  | .stopRequest =>
      if s.inRegistry = true ∧ s.status = "running" ∧ s.phase ≠ Phase.done then
        { s with cancelPending := true }
      else s
  | .evictOp =>
      if s.inRegistry = true then
        { s with inRegistry := false
                 cancelPending := if s.phase = Phase.done then s.cancelPending else true }
      else s
  | .cleanupOp =>
      if s.inRegistry = true ∧ s.status ≠ "running" ∧ s.listenerCount = 0 then
        { s with inRegistry := false }
      else s
  | .attachListener =>
      if s.inRegistry = true then { s with listenerCount := s.listenerCount + 1 } else s
  | .detachListener => { s with listenerCount := s.listenerCount - 1 }

/-- States reachable from a fresh run through any interleaving. -/
inductive RunReachable : RunState → Prop
  | init : RunReachable runInit
  | step (s : RunState) (op : RunOp) : RunReachable s → RunReachable (runStep s op)

/-- A terminal status value. -/
def terminalStatus (st : String) : Prop :=
  st = "completed" ∨ st = "stopped" ∨ st = "error"

/-! ### Run start: listener registration versus the first broadcast

Micro-step model of the critical section at the end of `analyze_resume`
(chat.py lines 379-413) and of the spawned task's broadcasts.  The admission
coroutine holds `_runtime_lock` through pc = 0..3 (create task, insert the
runtime, add the initiating queue — queue id 0) and releases it at pc = 4;
`_broadcast_event` must take the same lock (and the spawned task cannot run
at all before the admission coroutine suspends), so a broadcast step is
enabled only once pc = 4. -/

structure StartState where
  admPc : Nat
  taskSpawned : Bool
  registered : Bool
  listeners : List Nat
  broadcastLog : List Event
  received : List Event
deriving DecidableEq, Repr

def startInit : StartState :=
  { admPc := 0, taskSpawned := false, registered := false
    listeners := [], broadcastLog := [], received := [] }

/-- The interleaving steps during run start.  `bcast e` delivers `e` to every
currently registered listener; `received` tracks queue 0's deliveries. -/
inductive StartStep : StartState → StartState → Prop
  | admCreateTask (s : StartState) : s.admPc = 0 →
      StartStep s { s with admPc := 1, taskSpawned := true }
  | admRegister (s : StartState) : s.admPc = 1 →
      StartStep s { s with admPc := 2, registered := true, listeners := [] }
  | admAddListener (s : StartState) : s.admPc = 2 →
      StartStep s { s with admPc := 3, listeners := s.listeners ++ [0] }
  | admReleaseLock (s : StartState) : s.admPc = 3 →
      StartStep s { s with admPc := 4 }
  | bcast (s : StartState) (e : Event) : s.admPc = 4 → s.taskSpawned = true →
      s.registered = true →
      StartStep s { s with broadcastLog := s.broadcastLog ++ [e]
                           received := if 0 ∈ s.listeners then s.received ++ [e]
                                       else s.received }

inductive StartReachable : StartState → Prop
  | init : StartReachable startInit
  | step (s t : StartState) : StartReachable s → StartStep s t → StartReachable t

/-! ### Normal forms of a run -/

/-- The fragment lists the adapter yields on a failure-free run, one list per
step, obtained by replaying the executor's sequence of calls. -/
def okChunks (llm : Adapter) (lp : Nat → String) (r : String) (jd : Option String) :
    List WorkflowStep → List String → List (List String)
  | [], _ => []
  | step :: rest, results =>
    let chunks := (llm (stepMessages lp r jd results step)).chunks
    chunks :: okChunks llm lp r jd rest (results ++ [concatChunks chunks])

/-- The message lists of the adapter calls on a failure-free run. -/
def okCalls (llm : Adapter) (lp : Nat → String) (r : String) (jd : Option String) :
    List WorkflowStep → List String → List (List ChatMsg)
  | [], _ => []
  | step :: rest, results =>
    stepMessages lp r jd results step ::
      okCalls llm lp r jd rest
        (results ++ [concatChunks (llm (stepMessages lp r jd results step)).chunks])

/-- The per-step event blocks of a failure-free run, flattened. -/
def okEvents (llm : Adapter) (lp : Nat → String) (r : String) (jd : Option String)
    (steps : List WorkflowStep) (results : List String) : List Event :=
  (steps.zipWith stepBlock (okChunks llm lp r jd steps results)).flatten

theorem foldl_append_eq (cs : List String) (a : String) :
    cs.foldl (· ++ ·) a = a ++ cs.foldl (· ++ ·) "" := by
  induction cs generalizing a with
  | nil => simp
  | cons c cs ih =>
      simp only [List.foldl_cons, String.empty_append]
      rw [ih (a ++ c), ih c, String.append_assoc]

theorem concatChunks_nil : concatChunks [] = "" := rfl

theorem concatChunks_cons (c : String) (cs : List String) :
    concatChunks (c :: cs) = c ++ concatChunks cs := by
  show List.foldl (· ++ ·) ("" ++ c) cs = _
  rw [foldl_append_eq]
  simp [concatChunks]

/-- On a failure-free run the executor produces exactly the flattened blocks
followed by one `complete`, raises nothing, and makes the logged calls. -/
theorem execute_steps_ok (llm : Adapter) (lp : Nat → String) (r : String)
    (jd : Option String) (hok : ∀ m, (llm m).failure = none) :
    ∀ (steps : List WorkflowStep) (results : List String),
      execute_steps llm lp r jd steps results =
        (okEvents llm lp r jd steps results ++ [Event.complete], none,
         okCalls llm lp r jd steps results)
  | [], results => by simp [execute_steps, okEvents, okChunks, okCalls]
  | step :: rest, results => by
      have h := execute_steps_ok llm lp r jd hok rest
        (results ++ [concatChunks (llm (stepMessages lp r jd results step)).chunks])
      simp only [execute_steps, hok, h, okEvents, okChunks, okCalls, List.zipWith_cons_cons,
        List.flatten_cons]
      simp [okEvents]

theorem processEvents_append (rt : RuntimeSnap) (xs ys : List Event) :
    processEvents rt (xs ++ ys) =
      ((processEvents (processEvents rt xs).1 ys).1,
       (processEvents rt xs).2.1 ++ (processEvents (processEvents rt xs).1 ys).2.1,
       (processEvents rt xs).2.2 ++ (processEvents (processEvents rt xs).1 ys).2.2) := by
  induction xs generalizing rt with
  | nil => simp [processEvents]
  | cons e es ih => simp [processEvents, ih, List.append_assoc]

theorem processEvents_contents (rt : RuntimeSnap) (s : Nat) (chunks : List String) :
    processEvents rt (chunks.map (Event.content s)) =
      ({rt with current_content := rt.current_content ++ concatChunks chunks},
       chunks.map (Event.content s), []) := by
  induction chunks generalizing rt with
  | nil => simp [processEvents, concatChunks]
  | cons c cs ih =>
      simp [processEvents, processEvent, ih, concatChunks_cons, String.append_assoc]

/-- The broadcast form of one successful step's block: `step_end` patched to
carry the step's accumulated text. -/
def bcastBlock (step : WorkflowStep) (chunks : List String) : List Event :=
  Event.step_start step.step_number (some step.title) (some step.description) ::
    (chunks.map (Event.content step.step_number) ++
     [Event.step_end step.step_number (some (concatChunks chunks))])

/-- Processing one successful step's block: the broadcast `step_end` is
patched to carry the concatenation of that block's fragments, and exactly
that text is persisted when non-empty. -/
theorem processEvents_block (rt : RuntimeSnap) (step : WorkflowStep) (chunks : List String) :
    processEvents rt (stepBlock step chunks) =
      (⟨some step.step_number, concatChunks chunks, rt.status⟩,
       bcastBlock step chunks,
       if (concatChunks chunks).isEmpty then []
       else [⟨"assistant", concatChunks chunks, some step.step_number⟩]) := by
  rw [bcastBlock]
  simp only [stepBlock, processEvents, processEvent, processEvents_append,
    processEvents_contents]
  by_cases h : (concatChunks chunks).isEmpty <;> simp [h]

/-- The step number an event mentions, if any. -/
def eventStep : Event → Option Nat
  | .step_start s _ _ => some s
  | .content s _ => some s
  | .step_end s _ => some s
  | _ => none

/-- The `content` fragments emitted for step `s`, in emission order. -/
def contentsFor (s : Nat) (evs : List Event) : List String :=
  evs.filterMap (fun e =>
    match e with
    | .content t c => if t = s then some c else none
    | _ => none)

theorem filterMap_const_none {α β : Type} (l : List α) :
    l.filterMap (fun _ => (none : Option β)) = [] := by
  induction l <;> simp_all [List.filterMap_cons]

theorem contentsFor_append (s : Nat) (xs ys : List Event) :
    contentsFor s (xs ++ ys) = contentsFor s xs ++ contentsFor s ys := by
  simp [contentsFor]

theorem contentsFor_eq_nil (s : Nat) (evs : List Event)
    (h : ∀ c, Event.content s c ∉ evs) : contentsFor s evs = [] := by
  rw [contentsFor, List.filterMap_eq_nil_iff]
  intro e he
  cases e with
  | content t c =>
      by_cases ht : t = s
      · subst ht; exact absurd he (h c)
      · simp [ht]
  | step_start t ti de => rfl
  | step_end t c => rfl
  | complete => rfl
  | stopped => rfl
  | error m => rfl
  | ping => rfl

theorem contentsFor_stepBlock (s : Nat) (step : WorkflowStep) (chunks : List String) :
    contentsFor s (stepBlock step chunks) =
      if step.step_number = s then chunks else [] := by
  by_cases h : step.step_number = s <;>
    simp [contentsFor, stepBlock, List.filterMap_map, h, filterMap_const_none,
      Function.comp_def]

theorem contentsFor_bcastBlock (s : Nat) (step : WorkflowStep) (chunks : List String) :
    contentsFor s (bcastBlock step chunks) =
      if step.step_number = s then chunks else [] := by
  by_cases h : step.step_number = s <;>
    simp [contentsFor, bcastBlock, List.filterMap_map, h, filterMap_const_none,
      Function.comp_def]

theorem okEvents_cons (llm : Adapter) (lp : Nat → String) (r : String) (jd : Option String)
    (step : WorkflowStep) (rest : List WorkflowStep) (results : List String) :
    okEvents llm lp r jd (step :: rest) results =
      stepBlock step (llm (stepMessages lp r jd results step)).chunks ++
        okEvents llm lp r jd rest
          (results ++ [concatChunks (llm (stepMessages lp r jd results step)).chunks]) := by
  simp [okEvents, okChunks]

/-- Every event of a failure-free run mentions one of the remaining steps. -/
theorem eventStep_okEvents (llm : Adapter) (lp : Nat → String) (r : String)
    (jd : Option String) :
    ∀ (steps : List WorkflowStep) (results : List String) (e : Event),
      e ∈ okEvents llm lp r jd steps results →
      ∀ s, eventStep e = some s → s ∈ steps.map (·.step_number)
  | [], results, e, he, s, hs => by simp [okEvents, okChunks] at he
  | step :: rest, results, e, he, s, hs => by
      rw [okEvents_cons, List.mem_append] at he
      simp only [List.map_cons, List.mem_cons]
      rcases he with he | he
      · have hss : s = step.step_number := by
          simp only [stepBlock, List.mem_cons, List.mem_append, List.mem_map,
            List.mem_singleton, List.not_mem_nil, or_false] at he
          rcases he with rfl | ⟨⟨c, _, rfl⟩ | rfl⟩ <;> (simp [eventStep] at hs; omega)
        exact Or.inl hss
      · exact Or.inr (eventStep_okEvents llm lp r jd rest _ e he s hs)

/-- Every broadcast event of a failure-free run mentions a remaining step. -/
theorem eventStep_bcast (llm : Adapter) (lp : Nat → String) (r : String)
    (jd : Option String) :
    ∀ (steps : List WorkflowStep) (results : List String) (rt : RuntimeSnap) (e : Event),
      e ∈ (processEvents rt (okEvents llm lp r jd steps results)).2.1 →
      ∀ s, eventStep e = some s → s ∈ steps.map (·.step_number)
  | [], results, rt, e, he, s, hs => by simp [okEvents, okChunks, processEvents] at he
  | step :: rest, results, rt, e, he, s, hs => by
      rw [okEvents_cons, processEvents_append, processEvents_block] at he
      simp only [List.mem_append] at he
      simp only [List.map_cons, List.mem_cons]
      rcases he with he | he
      · have hss : s = step.step_number := by
          simp only [bcastBlock, List.mem_cons, List.mem_append, List.mem_map,
            List.mem_singleton, List.not_mem_nil, or_false] at he
          rcases he with rfl | ⟨⟨c, _, rfl⟩ | rfl⟩ <;> (simp [eventStep] at hs; omega)
        exact Or.inl hss
      · exact Or.inr (eventStep_bcast llm lp r jd rest _ _ e he s hs)

/-- Localization of broadcast `step_end` contents on a failure-free run over
steps with pairwise-distinct numbers: each broadcast `step_end` carries the
concatenation of all `content` fragments broadcast for its step. -/
theorem step_end_localized (llm : Adapter) (lp : Nat → String) (r : String)
    (jd : Option String) :
    ∀ (steps : List WorkflowStep), (steps.map (·.step_number)).Nodup →
    ∀ (results : List String) (rt : RuntimeSnap) (s : Nat) (oc : Option String),
      Event.step_end s oc ∈ (processEvents rt (okEvents llm lp r jd steps results)).2.1 →
      oc = some (concatChunks (contentsFor s
        (processEvents rt (okEvents llm lp r jd steps results)).2.1))
  | [], _, results, rt, s, oc, hmem => by
      simp [okEvents, okChunks, processEvents] at hmem
  | step :: rest, hnd, results, rt, s, oc, hmem => by
      rw [okEvents_cons, processEvents_append, processEvents_block] at hmem ⊢
      simp only [List.mem_append] at hmem
      rw [List.map_cons, List.nodup_cons] at hnd
      rcases hmem with hmem | hmem
      · -- the step_end of the head block
        simp only [bcastBlock, List.mem_cons, List.mem_append, List.mem_map,
          List.mem_singleton, List.not_mem_nil, or_false] at hmem
        rcases hmem with hmem | ⟨⟨c, _, hmem⟩ | hmem⟩
        · exact absurd hmem (by simp)
        · exact absurd hmem (by simp)
        · obtain ⟨hs, hoc⟩ : s = step.step_number ∧
              oc = some (concatChunks (llm (stepMessages lp r jd results step)).chunks) := by
            cases hmem; exact ⟨rfl, rfl⟩
          subst hs
          rw [contentsFor_append, contentsFor_bcastBlock, if_pos rfl]
          rw [contentsFor_eq_nil step.step_number _ (fun c hc => hnd.1 (by
            simpa using eventStep_bcast llm lp r jd rest _ _ _ hc step.step_number rfl))]
          simp [hoc]
      · -- a step_end of a later block
        have hsrest : s ∈ rest.map (·.step_number) :=
          eventStep_bcast llm lp r jd rest _ _ _ hmem s rfl
        have hsne : step.step_number ≠ s := fun h => hnd.1 (h ▸ hsrest)
        rw [contentsFor_append, contentsFor_bcastBlock, if_neg hsne]
        rw [List.nil_append]
        exact step_end_localized llm lp r jd rest hnd.2 _ _ s oc hmem

/-- C1.  For every run in which the adapter never fails, every `step_end`
event broadcast by `_run_workflow_background` carries a `content` (full
text) field equal to the concatenation, in emission order, of all `content`
fragments broadcast for that step — for every adapter behaviour, i.e.
regardless of chunk sizes. -/
theorem step_end_full_text_eq_concat (llm : Adapter) (lp : Nat → String)
    (r : String) (jd : Option String) (rt' : RuntimeSnap) (bs : List Event)
    (rows : List MsgRow) (s : Nat) (oc : Option String)
    (hok : ∀ m, (llm m).failure = none)
    (hrun : run_workflow_background llm lp r jd = (rt', bs, rows))
    (hmem : Event.step_end s oc ∈ bs) :
    oc = some (concatChunks (contentsFor s bs)) := by
  have hx := execute_steps_ok llm lp r jd hok WORKFLOW_STEPS []
  rw [run_workflow_background, execute_all_stream, hx] at hrun
  simp only [processEvents_append] at hrun
  have hbs : bs = (processEvents ⟨none, "", "running"⟩
      (okEvents llm lp r jd WORKFLOW_STEPS [])).2.1 ++ [Event.complete] := by
    have := congrArg (Prod.fst ∘ Prod.snd) hrun
    simpa [processEvents, processEvent] using this.symm
  subst hbs
  have hnd : (WORKFLOW_STEPS.map (·.step_number)).Nodup := by decide
  have hmem' : Event.step_end s oc ∈ (processEvents ⟨none, "", "running"⟩
      (okEvents llm lp r jd WORKFLOW_STEPS [])).2.1 := by
    rcases List.mem_append.mp hmem with h | h
    · exact h
    · simp at h
  rw [contentsFor_append]
  have hnil : contentsFor s [Event.complete] = [] := rfl
  rw [hnil, List.append_nil]
  exact step_end_localized llm lp r jd WORKFLOW_STEPS hnd [] _ s oc hmem'

/-- A concrete failure-free adapter used by witnesses. -/
def demoLLM : Adapter := fun _ => ⟨["Hel", "lo"], none⟩

/-- Witness for C1 at a concrete run. -/
theorem step_end_full_text_eq_concat_witness :
    some "Hello" = some (concatChunks (contentsFor 1
      (run_workflow_background demoLLM (fun _ => "P") "R" none).2.1)) :=
  step_end_full_text_eq_concat demoLLM (fun _ => "P") "R" none _ _ _ 1 (some "Hello")
    (fun _ => rfl) rfl (by decide)

/-- The step numbers of the `step_start` events, in emission order. -/
def startSteps (evs : List Event) : List Nat :=
  evs.filterMap (fun e =>
    match e with
    | .step_start s _ _ => some s
    | _ => none)

theorem startSteps_append (xs ys : List Event) :
    startSteps (xs ++ ys) = startSteps xs ++ startSteps ys := by
  simp [startSteps]

theorem startSteps_stepBlock (step : WorkflowStep) (chunks : List String) :
    startSteps (stepBlock step chunks) = [step.step_number] := by
  simp [startSteps, stepBlock, List.filterMap_map, Function.comp_def, filterMap_const_none]

theorem startSteps_okEvents (llm : Adapter) (lp : Nat → String) (r : String)
    (jd : Option String) :
    ∀ (steps : List WorkflowStep) (results : List String),
      startSteps (okEvents llm lp r jd steps results) = steps.map (·.step_number)
  | [], results => by simp [okEvents, okChunks, startSteps]
  | step :: rest, results => by
      rw [okEvents_cons, startSteps_append, startSteps_stepBlock,
        startSteps_okEvents llm lp r jd rest _]
      simp

theorem okChunks_length (llm : Adapter) (lp : Nat → String) (r : String)
    (jd : Option String) :
    ∀ (steps : List WorkflowStep) (results : List String),
      (okChunks llm lp r jd steps results).length = steps.length
  | [], _ => rfl
  | step :: rest, results => by
      simp [okChunks, okChunks_length llm lp r jd rest]

theorem complete_not_mem_stepBlock (step : WorkflowStep) (chunks : List String) :
    Event.complete ∉ stepBlock step chunks := by
  simp [stepBlock]

theorem complete_not_mem_okEvents (llm : Adapter) (lp : Nat → String) (r : String)
    (jd : Option String) :
    ∀ (steps : List WorkflowStep) (results : List String),
      Event.complete ∉ okEvents llm lp r jd steps results
  | [], results => by simp [okEvents, okChunks]
  | step :: rest, results => by
      rw [okEvents_cons, List.mem_append]
      rintro (h | h)
      · exact complete_not_mem_stepBlock _ _ h
      · exact complete_not_mem_okEvents llm lp r jd rest _ h

/-- C2.  On a failure-free, uncancelled run the executor yields exactly, for
each of the five fixed steps in ascending order, one `step_start` (with that
step's title and description), zero or more `content` events, one
`step_end`, and then exactly one terminating `complete`: the event list is
the flattening of the five step blocks followed by `complete`, the
`step_start` step numbers are exactly `[1, 2, 3, 4, 5]`, `complete` occurs
exactly once, and it is the final event. -/
theorem execute_all_stream_event_shape (llm : Adapter) (lp : Nat → String)
    (r : String) (jd : Option String) (events : List Event) (err : Option String)
    (calls : List (List ChatMsg))
    (hok : ∀ m, (llm m).failure = none)
    (hrun : execute_all_stream llm lp r jd = (events, err, calls)) :
    err = none ∧
    (∃ chs : List (List String), chs.length = 5 ∧
        events = (WORKFLOW_STEPS.zipWith stepBlock chs).flatten ++ [Event.complete]) ∧
    startSteps events = [1, 2, 3, 4, 5] ∧
    events.count Event.complete = 1 ∧
    events.getLast? = some Event.complete := by
  rw [execute_all_stream, execute_steps_ok llm lp r jd hok WORKFLOW_STEPS []] at hrun
  obtain ⟨hev, herr, hcalls⟩ : events = okEvents llm lp r jd WORKFLOW_STEPS [] ++
      [Event.complete] ∧ err = none ∧ calls = okCalls llm lp r jd WORKFLOW_STEPS [] := by
    refine ⟨?_, ?_, ?_⟩ <;> [exact (congrArg Prod.fst hrun).symm;
      exact (congrArg (Prod.fst ∘ Prod.snd) hrun).symm;
      exact (congrArg (Prod.snd ∘ Prod.snd) hrun).symm]
  subst hev herr
  refine ⟨rfl, ⟨okChunks llm lp r jd WORKFLOW_STEPS [], ?_, rfl⟩, ?_, ?_, ?_⟩
  · rw [okChunks_length]
    rfl
  · rw [startSteps_append, startSteps_okEvents]
    rfl
  · rw [List.count_append]
    rw [List.count_eq_zero.mpr (complete_not_mem_okEvents llm lp r jd WORKFLOW_STEPS [])]
    rfl
  · exact List.getLast?_concat _

/-- Witness for C2 at a concrete run. -/
theorem execute_all_stream_event_shape_witness :
    (execute_all_stream demoLLM (fun _ => "P") "R" none).2.1 = none ∧
    (∃ chs : List (List String), chs.length = 5 ∧
        (execute_all_stream demoLLM (fun _ => "P") "R" none).1 =
          (WORKFLOW_STEPS.zipWith stepBlock chs).flatten ++ [Event.complete]) ∧
    startSteps (execute_all_stream demoLLM (fun _ => "P") "R" none).1 = [1, 2, 3, 4, 5] ∧
    (execute_all_stream demoLLM (fun _ => "P") "R" none).1.count Event.complete = 1 ∧
    (execute_all_stream demoLLM (fun _ => "P") "R" none).1.getLast? = some Event.complete :=
  execute_all_stream_event_shape demoLLM (fun _ => "P") "R" none _ _ _ (fun _ => rfl) rfl

/-! ### The failure path (C7) -/

theorem error_mem_processEvents (m : String) :
    ∀ (evs : List Event) (rt : RuntimeSnap),
      Event.error m ∈ (processEvents rt evs).2.1 → Event.error m ∈ evs
  | [], rt, h => by simp [processEvents] at h
  | e :: es, rt, h => by
      simp only [processEvents, List.mem_cons] at h ⊢
      rcases h with h | h
      · left
        cases e <;> simp_all [processEvent]
      · exact Or.inr (error_mem_processEvents m es _ h)

theorem complete_mem_processEvents :
    ∀ (evs : List Event) (rt : RuntimeSnap),
      Event.complete ∈ (processEvents rt evs).2.1 → Event.complete ∈ evs
  | [], rt, h => by simp [processEvents] at h
  | e :: es, rt, h => by
      simp only [processEvents, List.mem_cons] at h ⊢
      rcases h with h | h
      · left
        cases e <;> simp_all [processEvent]
      · exact Or.inr (complete_mem_processEvents es _ h)

theorem stepend_mem_processEvents (s : Nat) (oc : Option String) :
    ∀ (evs : List Event) (rt : RuntimeSnap),
      Event.step_end s oc ∈ (processEvents rt evs).2.1 →
      ∃ oc', Event.step_end s oc' ∈ evs
  | [], rt, h => by simp [processEvents] at h
  | e :: es, rt, h => by
      simp only [processEvents, List.mem_cons] at h
      rcases h with h | h
      · cases e with
        | step_end t c =>
            have hs : s = t := by
              simp only [processEvent, Event.step_end.injEq] at h
              exact h.1
            subst hs
            exact ⟨c, List.mem_cons_self _ _⟩
        | step_start t ti de => simp [processEvent] at h
        | content t c => simp [processEvent] at h
        | complete => simp [processEvent] at h
        | stopped => simp [processEvent] at h
        | error m => simp [processEvent] at h
        | ping => simp [processEvent] at h
      · obtain ⟨oc', h'⟩ := stepend_mem_processEvents s oc es _ h
        exact ⟨oc', List.mem_cons_of_mem _ h'⟩

theorem error_not_mem_stepBlock (m : String) (step : WorkflowStep)
    (chunks : List String) : Event.error m ∉ stepBlock step chunks := by
  simp [stepBlock]

theorem error_not_mem_zip (m : String) :
    ∀ (done : List WorkflowStep) (chs : List (List String)),
      Event.error m ∉ (done.zipWith stepBlock chs).flatten
  | [], chs => by simp
  | step :: rest, [] => by simp
  | step :: rest, ch :: chs => by
      simp only [List.zipWith_cons_cons, List.flatten_cons, List.mem_append]
      rintro (h | h)
      · exact error_not_mem_stepBlock m step ch h
      · exact error_not_mem_zip m rest chs h

theorem complete_not_mem_zip :
    ∀ (done : List WorkflowStep) (chs : List (List String)),
      Event.complete ∉ (done.zipWith stepBlock chs).flatten
  | [], chs => by simp
  | step :: rest, [] => by simp
  | step :: rest, ch :: chs => by
      simp only [List.zipWith_cons_cons, List.flatten_cons, List.mem_append]
      rintro (h | h)
      · exact complete_not_mem_stepBlock step ch h
      · exact complete_not_mem_zip rest chs h

theorem stepend_steps_zip :
    ∀ (done : List WorkflowStep) (chs : List (List String)) (s : Nat) (oc : Option String),
      Event.step_end s oc ∈ (done.zipWith stepBlock chs).flatten →
      s ∈ done.map (·.step_number)
  | [], chs, s, oc, h => by simp at h
  | step :: rest, [], s, oc, h => by simp at h
  | step :: rest, ch :: chs, s, oc, h => by
      simp only [List.zipWith_cons_cons, List.flatten_cons, List.mem_append] at h
      simp only [List.map_cons, List.mem_cons]
      rcases h with h | h
      · left
        simp only [stepBlock, List.mem_cons, List.mem_append, List.mem_map,
          List.mem_singleton, List.not_mem_nil, or_false] at h
        rcases h with h | ⟨⟨c, _, h⟩ | h⟩
        · exact absurd h (by simp)
        · exact absurd h (by simp)
        · cases h; rfl
      · exact Or.inr (stepend_steps_zip rest chs s oc h)

/-- The persisted rows of a sequence of completed step blocks all carry one
of those blocks' step numbers. -/
theorem rows_steps_zip :
    ∀ (done : List WorkflowStep) (chs : List (List String)) (rt : RuntimeSnap)
      (row : MsgRow),
      row ∈ (processEvents rt (done.zipWith stepBlock chs).flatten).2.2 →
      ∃ st, st ∈ done ∧ row.step = some st.step_number
  | [], chs, rt, row, h => by simp [processEvents] at h
  | step :: rest, [], rt, row, h => by simp [processEvents] at h
  | step :: rest, ch :: chs, rt, row, h => by
      simp only [List.zipWith_cons_cons, List.flatten_cons] at h
      rw [processEvents_append, processEvents_block] at h
      simp only [List.mem_append] at h
      rcases h with h | h
      · refine ⟨step, List.mem_cons_self _ _, ?_⟩
        by_cases hc : (concatChunks ch).isEmpty <;> simp [hc] at h
        · rw [h]
      · obtain ⟨st, hst, hrow⟩ := rows_steps_zip rest chs _ row h
        exact ⟨st, List.mem_cons_of_mem _ hst, hrow⟩

/-- Processing the truncated block of a failed step: the `step_start` and
partial fragments are broadcast unchanged, nothing is persisted. -/
theorem processEvents_startContents (rt : RuntimeSnap) (s : Nat)
    (ti de : Option String) (chunks : List String) :
    processEvents rt (Event.step_start s ti de :: chunks.map (Event.content s)) =
      (⟨some s, concatChunks chunks, rt.status⟩,
       Event.step_start s ti de :: chunks.map (Event.content s), []) := by
  simp [processEvents, processEvent, processEvents_contents]

/-- The executor's output when the adapter raises: the blocks of the steps
completed before the failure, then the failing step's `step_start` and the
fragments received before the exception — no `step_end` for it. -/
theorem execute_steps_fail (llm : Adapter) (lp : Nat → String) (r : String)
    (jd : Option String) :
    ∀ (steps : List WorkflowStep) (results : List String) (msg : String),
      (execute_steps llm lp r jd steps results).2.1 = some msg →
      ∃ (done : List WorkflowStep) (fs : WorkflowStep) (rest : List WorkflowStep)
        (chs : List (List String)) (fchunks : List String),
        steps = done ++ fs :: rest ∧ chs.length = done.length ∧
        (execute_steps llm lp r jd steps results).1 =
          (done.zipWith stepBlock chs).flatten ++
            (Event.step_start fs.step_number (some fs.title) (some fs.description) ::
             fchunks.map (Event.content fs.step_number))
  | [], results, msg, h => by simp [execute_steps] at h
  | step :: rest, results, msg, h => by
      rcases hfail : (llm (stepMessages lp r jd results step)).failure with _ | m
      · -- this step succeeded; the failure is further on
        simp only [execute_steps, hfail] at h ⊢
        obtain ⟨done, fs, rest', chs, fchunks, hsteps, hlen, hev⟩ :=
          execute_steps_fail llm lp r jd rest
            (results ++ [concatChunks (llm (stepMessages lp r jd results step)).chunks]) msg h
        refine ⟨step :: done, fs, rest',
          (llm (stepMessages lp r jd results step)).chunks :: chs, fchunks, ?_, ?_, ?_⟩
        · rw [hsteps]; rfl
        · simpa using hlen
        · simp only [List.zipWith_cons_cons, List.flatten_cons, List.append_assoc]
          rw [hev]
      · simp only [execute_steps, hfail] at h ⊢
        exact ⟨[], step, rest, [], (llm (stepMessages lp r jd results step)).chunks,
          rfl, rfl, by simp⟩

/-- C7.  If the adapter fails mid-step, the caller of the executor marks the
run `error` and broadcasts exactly one `error` event carrying the failure
message as the final event; no `complete` event occurs, and for the failing
step no `step_end` is broadcast and no row is persisted. -/
theorem adapter_failure_no_step_end (llm : Adapter) (lp : Nat → String)
    (r : String) (jd : Option String) (rt' : RuntimeSnap) (bs : List Event)
    (rows : List MsgRow) (msg : String)
    (hrun : run_workflow_background llm lp r jd = (rt', bs, rows))
    (hfail : (execute_all_stream llm lp r jd).2.1 = some msg) :
    rt'.status = "error" ∧
    bs.getLast? = some (Event.error msg) ∧
    (bs.filter (fun e => match e with | .error _ => true | _ => false)).length = 1 ∧
    Event.complete ∉ bs ∧
    ∃ f, (∃ ti de, Event.step_start f ti de ∈ bs) ∧
      (∀ oc, Event.step_end f oc ∉ bs) ∧
      (∀ row ∈ rows, row.step ≠ some f) := by
  rw [execute_all_stream] at hfail
  obtain ⟨done, fs, rest, chs, fchunks, hsteps, hlen, hev⟩ :=
    execute_steps_fail llm lp r jd WORKFLOW_STEPS [] msg hfail
  rw [run_workflow_background, execute_all_stream, hev] at hrun
  rw [hfail] at hrun
  simp only [processEvents_append, processEvents_startContents] at hrun
  obtain ⟨hst, hbs, hrows⟩ : rt'.status = "error" ∧
      bs = ((processEvents ⟨none, "", "running"⟩
              (done.zipWith stepBlock chs).flatten).2.1 ++
            (Event.step_start fs.step_number (some fs.title) (some fs.description) ::
             fchunks.map (Event.content fs.step_number))) ++ [Event.error msg] ∧
      rows = (processEvents ⟨none, "", "running"⟩
              (done.zipWith stepBlock chs).flatten).2.2 := by
    injection hrun with h1 h23
    injection h23 with h2 h3
    refine ⟨by rw [← h1], by rw [← h2, List.append_assoc], by rw [← h3, List.append_nil]⟩
  -- the failing step's number is not among the completed steps' numbers
  have hnd : (WORKFLOW_STEPS.map (·.step_number)).Nodup := by decide
  rw [hsteps] at hnd
  have hnotin : fs.step_number ∉ done.map (·.step_number) := by
    rw [List.map_append, List.map_cons, List.nodup_append] at hnd
    exact fun hin => hnd.2.2 hin (List.mem_cons_self _ _)
  -- the raw events of the run
  have hrawE : (execute_steps llm lp r jd WORKFLOW_STEPS []).1 =
      (done.zipWith stepBlock chs).flatten ++
        (Event.step_start fs.step_number (some fs.title) (some fs.description) ::
         fchunks.map (Event.content fs.step_number)) := hev
  subst hbs hrows
  refine ⟨hst, List.getLast?_concat _, ?_, ?_, fs.step_number, ?_, ?_, ?_⟩
  · -- exactly one error event
    rw [List.filter_append]
    have h1 : ∀ e ∈ (processEvents (⟨none, "", "running"⟩ : RuntimeSnap)
        (done.zipWith stepBlock chs).flatten).2.1 ++
        (Event.step_start fs.step_number (some fs.title) (some fs.description) ::
         fchunks.map (Event.content fs.step_number)),
        (match e with | Event.error _ => true | _ => false) = false := by
      intro e he
      rcases List.mem_append.mp he with he | he
      · cases e with
        | error m =>
            exact absurd (error_mem_processEvents m _ _ he) (error_not_mem_zip m done chs)
        | step_start a b c => rfl
        | content a b => rfl
        | step_end a b => rfl
        | complete => rfl
        | stopped => rfl
        | ping => rfl
      · cases e with
        | error m =>
            simp only [List.mem_cons, List.mem_map] at he
            rcases he with he | ⟨c, _, he⟩ <;> exact absurd he (by simp)
        | step_start a b c => rfl
        | content a b => rfl
        | step_end a b => rfl
        | complete => rfl
        | stopped => rfl
        | ping => rfl
    rw [List.filter_eq_nil_iff.mpr (by simpa using h1)]
    rfl
  · -- no complete event
    intro hc
    rcases List.mem_append.mp hc with hc | hc
    · rcases List.mem_append.mp hc with hc | hc
      · exact complete_not_mem_zip done chs (complete_mem_processEvents _ _ hc)
      · simp only [List.mem_cons, List.mem_map] at hc
        rcases hc with hc | ⟨c, _, hc⟩ <;> exact absurd hc (by simp)
    · simp at hc
  · -- the failing step's step_start was broadcast
    exact ⟨some fs.title, some fs.description, by
      refine List.mem_append.mpr (Or.inl (List.mem_append.mpr (Or.inr ?_)))
      exact List.mem_cons_self _ _⟩
  · -- no step_end for the failing step
    intro oc hmem
    rcases List.mem_append.mp hmem with hmem | hmem
    · rcases List.mem_append.mp hmem with hmem | hmem
      · obtain ⟨oc', hmem'⟩ := stepend_mem_processEvents _ oc _ _ hmem
        exact hnotin (stepend_steps_zip done chs _ oc' hmem')
      · simp only [List.mem_cons, List.mem_map] at hmem
        rcases hmem with hmem | ⟨c, _, hmem⟩ <;> exact absurd hmem (by simp)
    · simp at hmem
  · -- nothing persisted for the failing step
    intro row hrow hcontra
    obtain ⟨st, hst', hrowstep⟩ := rows_steps_zip done chs _ row hrow
    rw [hrowstep] at hcontra
    have : st.step_number ∈ done.map (·.step_number) :=
      List.mem_map.mpr ⟨st, hst', rfl⟩
    rw [Option.some_inj.mp hcontra] at this
    exact hnotin this

/-- A concrete adapter that fails on its first call, for the C7 witness. -/
def failLLM : Adapter := fun _ => ⟨["par"], some "boom"⟩

/-- Witness for C7 at a concrete failing run. -/
theorem adapter_failure_no_step_end_witness :
    (run_workflow_background failLLM (fun _ => "P") "R" none).1.status = "error" ∧
    (run_workflow_background failLLM (fun _ => "P") "R" none).2.1.getLast? =
      some (Event.error "boom") ∧
    ((run_workflow_background failLLM (fun _ => "P") "R" none).2.1.filter
      (fun e => match e with | .error _ => true | _ => false)).length = 1 ∧
    Event.complete ∉ (run_workflow_background failLLM (fun _ => "P") "R" none).2.1 ∧
    ∃ f, (∃ ti de, Event.step_start f ti de ∈
            (run_workflow_background failLLM (fun _ => "P") "R" none).2.1) ∧
      (∀ oc, Event.step_end f oc ∉
            (run_workflow_background failLLM (fun _ => "P") "R" none).2.1) ∧
      (∀ row ∈ (run_workflow_background failLLM (fun _ => "P") "R" none).2.2,
            row.step ≠ some f) :=
  adapter_failure_no_step_end failLLM (fun _ => "P") "R" none _ _ _ "boom" rfl rfl

/-! ### Prompt construction across steps (C9) -/

theorem intercalate_three (d a b c : String) :
    String.intercalate d [a, b, c] = a ++ d ++ b ++ d ++ c := rfl

/-- When previous results exist, the user message embeds their
`"\n\n"`-join — hence each previous step's full text, in step order. -/
theorem build_user_message_contains (r : String) (jd : Option String)
    (rs : List String) (hne : rs.isEmpty = false) :
    ∃ pre post, build_user_message r jd (some rs) =
      pre ++ String.intercalate "\n\n" rs ++ post := by
  refine ⟨("<user_resume>\n" ++ r ++ "\n</user_resume>") ++ "\n\n" ++
      (match jd with
       | some jdv =>
           if jdv.isEmpty then "<job_description>\n未提供岗位JD\n</job_description>"
           else "<job_description>\n" ++ jdv ++ "\n</job_description>"
       | none => "<job_description>\n未提供岗位JD\n</job_description>") ++ "\n\n" ++
      "<pre-process_results>\n", "\n</pre-process_results>", ?_⟩
  simp only [build_user_message, hne, Bool.false_eq_true, if_false, List.cons_append,
    List.nil_append, intercalate_three, String.append_assoc]

/-- On a failure-free run over steps with distinct numbers, the `content`
fragments emitted for the `i`-th step are exactly that step's adapter
chunks. -/
theorem contentsFor_okEvents (llm : Adapter) (lp : Nat → String) (r : String)
    (jd : Option String) :
    ∀ (steps : List WorkflowStep), (steps.map (·.step_number)).Nodup →
    ∀ (results : List String) (i : Nat) (st : WorkflowStep),
      steps[i]? = some st →
      contentsFor st.step_number (okEvents llm lp r jd steps results) =
        (okChunks llm lp r jd steps results)[i]?.getD []
  | [], _, results, i, st, hget => by simp at hget
  | step :: rest, hnd, results, i, st, hget => by
      rw [List.map_cons, List.nodup_cons] at hnd
      rw [okEvents_cons, contentsFor_append, contentsFor_stepBlock]
      cases i with
      | zero =>
          obtain rfl : step = st := by simpa using hget
          rw [if_pos rfl]
          rw [contentsFor_eq_nil _ _ (fun c hc => hnd.1 (by
            simpa using eventStep_okEvents llm lp r jd rest _ _ hc step.step_number rfl))]
          simp [okChunks]
      | succ n =>
          have hget' : rest[n]? = some st := by simpa using hget
          have hmem : st.step_number ∈ rest.map (·.step_number) :=
            List.mem_map.mpr ⟨st, List.getElem?_mem hget', rfl⟩
          rw [if_neg (fun h => hnd.1 (by rw [h]; exact hmem))]
          rw [List.nil_append]
          rw [contentsFor_okEvents llm lp r jd rest hnd.2 _ n st hget']
          simp [okChunks]

/-- The messages of the `n`-th adapter call carry the accumulated full texts
of the `n` previously completed steps. -/
theorem okCalls_get (llm : Adapter) (lp : Nat → String) (r : String)
    (jd : Option String) :
    ∀ (steps : List WorkflowStep) (results : List String) (n : Nat) (st : WorkflowStep),
      steps[n]? = some st →
      (okCalls llm lp r jd steps results)[n]? =
        some (stepMessages lp r jd
          (results ++ ((okChunks llm lp r jd steps results).take n).map concatChunks) st)
  | [], results, n, st, hget => by simp at hget
  | step :: rest, results, 0, st, hget => by
      obtain rfl : step = st := by simpa using hget
      simp [okCalls, okChunks]
  | step :: rest, results, n + 1, st, hget => by
      have hget' : rest[n]? = some st := by simpa using hget
      have ih := okCalls_get llm lp r jd rest
        (results ++ [concatChunks (llm (stepMessages lp r jd results step)).chunks]) n st hget'
      simp only [okCalls, okChunks, List.getElem?_cons_succ, List.take_succ_cons,
        List.map_cons, ih]
      simp [List.append_assoc]

theorem range_map_getD (n : Nat) (l : List (List String)) (hn : n ≤ l.length) :
    (List.range n).map (fun i => concatChunks (l[i]?.getD [])) =
      (l.take n).map concatChunks := by
  induction n with
  | zero => simp
  | succ m ih =>
      have hm : m ≤ l.length := Nat.le_of_succ_le hn
      rw [List.range_succ, List.map_append, ih hm]
      obtain ⟨x, hx⟩ : ∃ x, l[m]? = some x :=
        ⟨_, List.getElem?_eq_some_iff.mpr ⟨Nat.lt_of_succ_le hn, rfl⟩⟩
      rw [List.take_succ, hx]
      simp [hx]

theorem workflow_step_number_at (i : Nat) (st : WorkflowStep)
    (h : WORKFLOW_STEPS[i]? = some st) : st.step_number = i + 1 := by
  have hi : i < 5 := by
    by_contra hge
    push_neg at hge
    rw [List.getElem?_eq_none (by simpa [WORKFLOW_STEPS] using hge)] at h
    cases h
  interval_cases i <;> (simp [WORKFLOW_STEPS] at h; rw [← h])

/-- C9.  On a failure-free run, the adapter call for the step at index `n`
(step `n+1`) carries exactly the messages built from the full final texts —
the concatenations, in emission order, of the `content` fragments — of steps
`1..n` of the same run, in step order; when `n > 0` the user message
contains their `"\n\n"`-join.  Since the call's messages are a function of
those collected texts, step `n+1`'s call cannot be issued before step `n`'s
full text has been collected. -/
theorem prompt_contains_previous_results (llm : Adapter) (lp : Nat → String)
    (r : String) (jd : Option String) (events : List Event) (err : Option String)
    (calls : List (List ChatMsg)) (n : Nat) (msgs : List ChatMsg) (st : WorkflowStep)
    (hok : ∀ m, (llm m).failure = none)
    (hrun : execute_all_stream llm lp r jd = (events, err, calls))
    (hstep : WORKFLOW_STEPS[n]? = some st)
    (hcall : calls[n]? = some msgs) :
    msgs = stepMessages lp r jd
      ((List.range n).map (fun i => concatChunks (contentsFor (i + 1) events))) st ∧
    (0 < n → ∃ pre post, msgs = [⟨"system", lp st.step_number⟩,
        ⟨"user", pre ++ String.intercalate "\n\n"
          ((List.range n).map (fun i => concatChunks (contentsFor (i + 1) events))) ++
          post⟩]) := by
  rw [execute_all_stream, execute_steps_ok llm lp r jd hok] at hrun
  injection hrun with hev h23
  injection h23 with herr hcalls
  subst hev herr hcalls
  have hn5 : n < WORKFLOW_STEPS.length := (List.getElem?_eq_some_iff.mp hstep).1
  have hnd : (WORKFLOW_STEPS.map (·.step_number)).Nodup := by decide
  have htxt : (List.range n).map
        (fun i => concatChunks (contentsFor (i + 1)
          (okEvents llm lp r jd WORKFLOW_STEPS [] ++ [Event.complete]))) =
      ((okChunks llm lp r jd WORKFLOW_STEPS []).take n).map concatChunks := by
    rw [← range_map_getD n _ (by rw [okChunks_length]; exact Nat.le_of_lt hn5)]
    apply List.map_congr_left
    intro i hi
    have hilt : i < WORKFLOW_STEPS.length := lt_trans (List.mem_range.mp hi) hn5
    obtain ⟨sti, hsti⟩ : ∃ x, WORKFLOW_STEPS[i]? = some x :=
      ⟨_, List.getElem?_eq_some_iff.mpr ⟨hilt, rfl⟩⟩
    have hnum := workflow_step_number_at i sti hsti
    rw [contentsFor_append]
    have hcpl : contentsFor (i + 1) [Event.complete] = [] := rfl
    rw [hcpl, List.append_nil, ← hnum,
      contentsFor_okEvents llm lp r jd WORKFLOW_STEPS hnd [] i sti hsti]
  have hc := okCalls_get llm lp r jd WORKFLOW_STEPS [] n st hstep
  rw [hc] at hcall
  have hmsgs : msgs = stepMessages lp r jd
      (((okChunks llm lp r jd WORKFLOW_STEPS []).take n).map concatChunks) st := by
    rw [← Option.some_inj.mp hcall]
    simp
  constructor
  · rw [htxt]
    exact hmsgs
  · intro hn0
    have hlen : (((okChunks llm lp r jd WORKFLOW_STEPS []).take n).map concatChunks).length
        = n := by
      rw [List.length_map, List.length_take, okChunks_length]
      omega
    have hempty : (((okChunks llm lp r jd WORKFLOW_STEPS []).take n).map
        concatChunks).isEmpty = false := by
      rw [List.isEmpty_eq_false_iff_exists_mem]
      rcases hx : ((okChunks llm lp r jd WORKFLOW_STEPS []).take n).map concatChunks with
        _ | ⟨a, l⟩
      · rw [hx] at hlen; simp at hlen; omega
      · exact ⟨a, List.mem_cons_self _ _⟩
    obtain ⟨pre, post, hcontain⟩ := build_user_message_contains r jd
      (((okChunks llm lp r jd WORKFLOW_STEPS []).take n).map concatChunks) hempty
    refine ⟨pre, post, ?_⟩
    rw [hmsgs, htxt, stepMessages]
    simp only [hempty, Bool.false_eq_true, if_false, hcontain]

/-- Witness for C9 at a concrete run, second step (n = 1). -/
theorem prompt_contains_previous_results_witness :
    ((execute_all_stream demoLLM (fun _ => "P") "R" none).2.2[1]?.getD []) =
      stepMessages (fun _ => "P") "R" none
        ((List.range 1).map (fun i => concatChunks (contentsFor (i + 1)
          (execute_all_stream demoLLM (fun _ => "P") "R" none).1)))
        ⟨2, "地毯式深度审计与指导", "整体审计与模块化审计"⟩ ∧
    (0 < 1 → ∃ pre post,
      ((execute_all_stream demoLLM (fun _ => "P") "R" none).2.2[1]?.getD []) =
        [⟨"system", "P"⟩,
         ⟨"user", pre ++ String.intercalate "\n\n"
            ((List.range 1).map (fun i => concatChunks (contentsFor (i + 1)
              (execute_all_stream demoLLM (fun _ => "P") "R" none).1))) ++ post⟩]) :=
  prompt_contains_previous_results demoLLM (fun _ => "P") "R" none _ _ _ 1 _
    ⟨2, "地毯式深度审计与指导", "整体审计与模块化审计"⟩
    (fun _ => rfl) rfl (by decide) (by decide)

/-! ### Admission eviction (C3) and registry removal (C8) -/

/-- The `stopped` notifications sent to the listeners of a list of evicted
runtimes, in eviction order. -/
def stopNotifications : List Runtime → List (Nat × Event)
  | [] => []
  | rt :: rts => rt.listeners.map (fun q => (q, Event.stopped)) ++ stopNotifications rts

theorem mem_ownerRuntimes (reg : List Runtime) (uid : Nat) (x : Runtime) :
    x ∈ ownerRuntimes reg uid ↔ x ∈ reg ∧ x.user_id = uid := by
  simp [ownerRuntimes, List.mem_filter]

theorem oldestRuntime_go (f : Option Runtime → Runtime → Option Runtime)
    (hf : f = fun acc r =>
      match acc with
      | none => some r
      | some b => if r.started_at < b.started_at then some r else some b) :
    ∀ (rs : List Runtime) (b : Runtime),
      ∃ c, rs.foldl f (some b) = some c ∧ (c ∈ rs ∨ c = b) ∧
        c.started_at ≤ b.started_at ∧ ∀ x ∈ rs, c.started_at ≤ x.started_at
  | [], b => ⟨b, by simp, Or.inr rfl, le_refl _, by simp⟩
  | r :: rs, b => by
      have hstep : f (some b) r =
          some (if r.started_at < b.started_at then r else b) := by
        rw [hf]
        by_cases h : r.started_at < b.started_at <;> simp [h]
      obtain ⟨c, hc, hmem, hle, hmin⟩ :=
        oldestRuntime_go f hf rs (if r.started_at < b.started_at then r else b)
      refine ⟨c, by rw [List.foldl_cons, hstep]; exact hc, ?_, ?_, ?_⟩
      · rcases hmem with hm | hm
        · exact Or.inl (List.mem_cons_of_mem _ hm)
        · by_cases h : r.started_at < b.started_at
          · rw [if_pos h] at hm
            exact Or.inl (hm ▸ List.mem_cons_self _ _)
          · rw [if_neg h] at hm
            exact Or.inr hm
      · by_cases h : r.started_at < b.started_at
        · rw [if_pos h] at hle; omega
        · rwa [if_neg h] at hle
      · intro x hx
        rcases List.mem_cons.mp hx with hxr | hx
        · rw [hxr]
          by_cases h : r.started_at < b.started_at
          · rw [if_pos h] at hle; exact hle
          · rw [if_neg h] at hle; omega
        · exact hmin x hx

theorem oldestRuntime_spec (rs : List Runtime) (hne : rs ≠ []) :
    ∃ b, oldestRuntime rs = some b ∧ b ∈ rs ∧
      ∀ x ∈ rs, b.started_at ≤ x.started_at := by
  rcases rs with _ | ⟨r, rs⟩
  · exact absurd rfl hne
  · obtain ⟨c, hc, hmem, hle, hmin⟩ := oldestRuntime_go _ rfl rs r
    refine ⟨c, ?_, ?_, ?_⟩
    · rw [oldestRuntime, List.foldl_cons]
      exact hc
    · rcases hmem with hm | rfl
      · exact List.mem_cons_of_mem _ hm
      · exact List.mem_cons_self _ _
    · intro x hx
      rcases List.mem_cons.mp hx with rfl | hx
      · exact hle
      · exact hmin x hx

/-- Postconditions of the eviction loop, for any sufficiently large fuel:
afterwards the owner is under the cap; every evicted runtime belongs to the
owner and was registered; the surviving registry is a sub-collection; each
evicted runtime is no younger than any surviving runtime of the owner; and
each evicted runtime's listeners were notified with `stopped`. -/
theorem evictLoop_spec (uid limit : Nat) (hlim : 1 ≤ limit) :
    ∀ (fuel : Nat) (reg : List Runtime), reg.length ≤ fuel →
      (ownerRuntimes (evictLoop uid limit fuel reg).1 uid).length < limit ∧
      (∀ rt ∈ (evictLoop uid limit fuel reg).2.1, rt.user_id = uid ∧ rt ∈ reg) ∧
      (∀ rt ∈ (evictLoop uid limit fuel reg).1, rt ∈ reg) ∧
      (∀ rt ∈ (evictLoop uid limit fuel reg).2.1,
        ∀ x ∈ ownerRuntimes (evictLoop uid limit fuel reg).1 uid,
          rt.started_at ≤ x.started_at) ∧
      (evictLoop uid limit fuel reg).2.2 =
        stopNotifications (evictLoop uid limit fuel reg).2.1
  | 0, reg, hfuel => by
      have hreg : reg = [] := List.length_eq_zero.mp (Nat.le_zero.mp hfuel)
      subst hreg
      refine ⟨?_, by simp [evictLoop], by simp [evictLoop], by simp [evictLoop],
        by simp [evictLoop, stopNotifications]⟩
      simp [evictLoop, ownerRuntimes]
      omega
  | fuel + 1, reg, hfuel => by
      by_cases hcond : limit ≤ (ownerRuntimes reg uid).length
      · have hne : ownerRuntimes reg uid ≠ [] := by
          intro h
          rw [h] at hcond
          simp at hcond
          omega
        obtain ⟨oldest, hold, holdmem, holdmin⟩ := oldestRuntime_spec _ hne
        have holdreg : oldest ∈ reg := ((mem_ownerRuntimes reg uid oldest).mp holdmem).1
        have holduid : oldest.user_id = uid :=
          ((mem_ownerRuntimes reg uid oldest).mp holdmem).2
        have hshrink :
            (reg.filter (fun r => r.conversation_id ≠ oldest.conversation_id)).length <
              reg.length := by
          apply List.length_filter_lt_length_iff_exists.mpr
          exact ⟨oldest, holdreg, by simp⟩
        have hfuel' :
            (reg.filter (fun r => r.conversation_id ≠ oldest.conversation_id)).length ≤
              fuel := by omega
        have ih := evictLoop_spec uid limit hlim fuel
          (reg.filter (fun r => r.conversation_id ≠ oldest.conversation_id)) hfuel'
        have hunfold : evictLoop uid limit (fuel + 1) reg =
            ((evictLoop uid limit fuel
                (reg.filter (fun r => r.conversation_id ≠ oldest.conversation_id))).1,
             oldest :: (evictLoop uid limit fuel
                (reg.filter (fun r => r.conversation_id ≠ oldest.conversation_id))).2.1,
             oldest.listeners.map (fun q => (q, Event.stopped)) ++
               (evictLoop uid limit fuel
                (reg.filter (fun r => r.conversation_id ≠ oldest.conversation_id))).2.2) := by
          rw [evictLoop]
          simp only [hcond, if_pos, hold]
        rw [hunfold]
        obtain ⟨ih1, ih2, ih3, ih4, ih5⟩ := ih
        have hsub : ∀ x, x ∈ reg.filter
            (fun r => r.conversation_id ≠ oldest.conversation_id) → x ∈ reg :=
          fun x hx => List.mem_of_mem_filter hx
        refine ⟨ih1, ?_, fun rt hrt => hsub rt (ih3 rt hrt), ?_, ?_⟩
        · intro rt hrt
          rcases List.mem_cons.mp hrt with rfl | hrt
          · exact ⟨holduid, holdreg⟩
          · exact ⟨(ih2 rt hrt).1, hsub rt (ih2 rt hrt).2⟩
        · intro rt hrt x hx
          rcases List.mem_cons.mp hrt with rfl | hrt
          · have hxreg : x ∈ ownerRuntimes reg uid := by
              rw [mem_ownerRuntimes]
              have hx' := (mem_ownerRuntimes _ uid x).mp hx
              exact ⟨hsub x (ih3 x hx'.1), hx'.2⟩
            exact holdmin x hxreg
          · exact ih4 rt hrt x hx
        · rw [stopNotifications, ih5]
      · have hunfold : evictLoop uid limit (fuel + 1) reg = (reg, [], []) := by
          rw [evictLoop]
          simp only [hcond, if_neg, if_false]
        rw [hunfold]
        exact ⟨Nat.not_le.mp hcond, by simp, by simp, by simp, by simp [stopNotifications]⟩

/-- C3 (amended).  On admission, the controller counts all registered
Runtimes of the caller regardless of `status`; while that count is at or
above the cap it selects the Runtime with the smallest `started_at` among
the owner's registered set, notifies each of its listeners with a `stopped`
event without blocking, requests cancellation, and removes it from the
registry without awaiting acknowledgment, repeating until under the cap. -/
theorem admission_evicts_oldest_regardless_of_status (reg : List Runtime)
    (uid limit : Nat) (hlim : 1 ≤ limit) :
    (ownerRuntimes (admission_evict reg uid limit).1 uid).length < limit ∧
    (∀ rt ∈ (admission_evict reg uid limit).2.1, rt.user_id = uid ∧ rt ∈ reg) ∧
    (∀ rt ∈ (admission_evict reg uid limit).1, rt ∈ reg) ∧
    (∀ rt ∈ (admission_evict reg uid limit).2.1,
      ∀ x ∈ ownerRuntimes (admission_evict reg uid limit).1 uid,
        rt.started_at ≤ x.started_at) ∧
    (admission_evict reg uid limit).2.2 =
      stopNotifications (admission_evict reg uid limit).2.1 :=
  evictLoop_spec uid limit hlim reg.length reg le_rfl

/-- A terminal runtime retained in the registry for its attached listener. -/
def rtCompleted : Runtime :=
  ⟨1, 7, 0, "completed", [3], none, ""⟩

/-- Witness for the amended C3 at a concrete registry. -/
theorem admission_evicts_oldest_regardless_of_status_witness :
    (ownerRuntimes (admission_evict [rtCompleted] 1 1).1 1).length < 1 ∧
    (∀ rt ∈ (admission_evict [rtCompleted] 1 1).2.1,
      rt.user_id = 1 ∧ rt ∈ [rtCompleted]) ∧
    (∀ rt ∈ (admission_evict [rtCompleted] 1 1).1, rt ∈ [rtCompleted]) ∧
    (∀ rt ∈ (admission_evict [rtCompleted] 1 1).2.1,
      ∀ x ∈ ownerRuntimes (admission_evict [rtCompleted] 1 1).1 1,
        rt.started_at ≤ x.started_at) ∧
    (admission_evict [rtCompleted] 1 1).2.2 =
      stopNotifications (admission_evict [rtCompleted] 1 1).2.1 :=
  admission_evicts_oldest_regardless_of_status [rtCompleted] 1 1 (by decide)

/-- C3 counterexample.  With one registered Runtime of the owner in status
`completed` (kept alive by a listener), the claim's rule — count and evict
only `status = running` — would evict nothing, but the code counts it
against the cap and evicts it. -/
theorem admission_counts_nonrunning_counterexample :
    rtCompleted.status ≠ "running" ∧
    (admission_evict [rtCompleted] 1 1).2.1 = [rtCompleted] ∧
    (admission_evict [rtCompleted] 1 1).1 = [] ∧
    (claim_admission_evict [rtCompleted] 1 1).2.1 = [] ∧
    admission_evict [rtCompleted] 1 1 ≠ claim_admission_evict [rtCompleted] 1 1 := by
  decide

/-! ### Registry removal rule (C8) -/

/-- Core removal rule of `_cleanup_runtime`: a found runtime is kept
unchanged while running or while a listener remains, and is removed exactly
when terminal with no listeners. -/
theorem cleanup_core (reg : List Runtime) (cid : Nat) (rt : Runtime)
    (hfind : findRuntime reg cid = some rt) :
    ((rt.status = "running" ∨ rt.listeners ≠ []) → cleanup_runtime reg cid = reg) ∧
    ((rt.status ≠ "running" ∧ rt.listeners = []) →
      ∀ x ∈ cleanup_runtime reg cid, x.conversation_id ≠ cid) ∧
    (∀ x ∈ cleanup_runtime reg cid, x ∈ reg) := by
  have hcu : cleanup_runtime reg cid =
      (if (rt.status == "running") = true then reg
       else if rt.listeners.isEmpty = true then
         reg.filter (fun r => r.conversation_id ≠ cid) else reg) := by
    rw [cleanup_runtime, hfind]
  rw [hcu]
  by_cases hs : rt.status = "running"
  · rw [if_pos (by simp [hs])]
    exact ⟨fun _ => rfl, fun hc => absurd hs hc.1, fun x hx => hx⟩
  · rw [if_neg (by simp [hs])]
    by_cases hl : rt.listeners = []
    · rw [if_pos (by simp [hl])]
      refine ⟨fun hc => ?_, fun _ x hx => ?_, fun x hx => List.mem_of_mem_filter hx⟩
      · rcases hc with hc | hc
        · exact absurd hc hs
        · exact absurd hl hc
      · have := List.of_mem_filter hx
        simpa using this
    · rw [if_neg (by simp [hl])]
      exact ⟨fun _ => rfl, fun hc => absurd hc.2 hl, fun x hx => hx⟩

/-- C8 (amended).  Removal through `_cleanup_runtime` — the path taken on
task termination and on listener disconnect — deletes a Runtime only when
its status is terminal and its listener set is empty; a terminal Runtime
with a listener is retained.  (Admission eviction, by contrast, removes a
Runtime regardless of status and listeners; see the C3 theorems.) -/
theorem cleanup_removal_rule (reg : List Runtime) (cid : Nat) (rt : Runtime)
    (hfind : findRuntime reg cid = some rt) :
    ((rt.status = "running" ∨ rt.listeners ≠ []) → cleanup_runtime reg cid = reg) ∧
    ((rt.status ≠ "running" ∧ rt.listeners = []) →
      ∀ x ∈ cleanup_runtime reg cid, x.conversation_id ≠ cid) ∧
    (∀ x ∈ cleanup_runtime reg cid, x ∈ reg) ∧
    (∀ q rt2, findRuntime (discard_listener reg cid q) cid = some rt2 →
      ((rt2.status = "running" ∨ rt2.listeners ≠ []) →
        unsubscribe reg cid q = discard_listener reg cid q) ∧
      ((rt2.status ≠ "running" ∧ rt2.listeners = []) →
        ∀ x ∈ unsubscribe reg cid q, x.conversation_id ≠ cid)) := by
  obtain ⟨h1, h2, h3⟩ := cleanup_core reg cid rt hfind
  refine ⟨h1, h2, h3, ?_⟩
  intro q rt2 hfind2
  obtain ⟨g1, g2, _⟩ := cleanup_core (discard_listener reg cid q) cid rt2 hfind2
  exact ⟨g1, g2⟩

/-- A running runtime with one listener, evicted anyway by admission. -/
def rtRunning : Runtime :=
  ⟨1, 7, 0, "running", [3], none, ""⟩

/-- C8 counterexample.  Admission eviction — one of the operations the claim
covers — removes a Runtime whose status is `running` and whose listener set
is non-empty. -/
theorem eviction_removes_running_counterexample :
    rtRunning.status = "running" ∧ rtRunning.listeners ≠ [] ∧
    rtRunning ∈ [rtRunning] ∧
    (admission_evict [rtRunning] 1 1).1 = [] ∧
    (admission_evict [rtRunning] 1 1).2.1 = [rtRunning] := by
  decide

/-- Witness for the amended C8 at a concrete registry. -/
theorem cleanup_removal_rule_witness :
    ((rtCompleted.status = "running" ∨ rtCompleted.listeners ≠ []) →
      cleanup_runtime [rtCompleted] 7 = [rtCompleted]) ∧
    ((rtCompleted.status ≠ "running" ∧ rtCompleted.listeners = []) →
      ∀ x ∈ cleanup_runtime [rtCompleted] 7, x.conversation_id ≠ 7) ∧
    (∀ x ∈ cleanup_runtime [rtCompleted] 7, x ∈ [rtCompleted]) ∧
    (∀ q rt2, findRuntime (discard_listener [rtCompleted] 7 q) 7 = some rt2 →
      ((rt2.status = "running" ∨ rt2.listeners ≠ []) →
        unsubscribe [rtCompleted] 7 q = discard_listener [rtCompleted] 7 q) ∧
      ((rt2.status ≠ "running" ∧ rt2.listeners = []) →
        ∀ x ∈ unsubscribe [rtCompleted] 7 q, x.conversation_id ≠ 7)) :=
  cleanup_removal_rule [rtCompleted] 7 rtCompleted (by decide)

/-! ### Stop requests and the stop marker (C5) -/

theorem markerCount_eq_zero (db : MsgDb) (h : hasStopMarker db = false) :
    markerCount db = 0 := by
  rw [markerCount, List.length_eq_zero, List.filter_eq_nil_iff]
  intro m hm
  rw [hasStopMarker, List.any_eq_false] at h
  exact fun hmark => h m hm (by rw [hmark])

theorem markerCount_ensure (db : MsgDb) :
    markerCount (ensure_stop_marker db) =
      if hasStopMarker db then markerCount db else markerCount db + 1 := by
  rw [ensure_stop_marker]
  by_cases h : hasStopMarker db
  · simp [h]
  · simp only [h, if_false, Bool.false_eq_true]
    rw [markerCount, List.filter_append]
    simp [markerCount, isStopMarkerRow]

theorem hasStopMarker_ensure (db : MsgDb) :
    hasStopMarker (ensure_stop_marker db) = true := by
  rw [ensure_stop_marker]
  by_cases h : hasStopMarker db
  · simp [h]
  · simp only [h, if_false, Bool.false_eq_true]
    rw [hasStopMarker, List.any_append]
    simp [isStopMarkerRow, STOP_MARKER]

theorem ensure_idempotent (db : MsgDb) :
    ensure_stop_marker (ensure_stop_marker db) = ensure_stop_marker db := by
  rw [ensure_stop_marker, hasStopMarker_ensure]
  simp

theorem markerCount_ensure_le_one (db : MsgDb) (h : markerCount db ≤ 1) :
    markerCount (ensure_stop_marker db) ≤ 1 := by
  rw [markerCount_ensure]
  by_cases hh : hasStopMarker db
  · simpa [hh]
  · rw [if_neg (by simp [hh]), markerCount_eq_zero db (by simpa using hh)]

/-- C5.  `stop_conversation` on an owned conversation: a no-op returning
"already completed" (no cancel, no marker write) when an assistant message
for step 5 is durably recorded; otherwise it cancels exactly when an owned
running runtime exists, and ensures the stop marker.  The marker write is
idempotent, so at most one marker row ever exists; in particular two
successive stop calls persist at most one marker. -/
theorem stop_conversation_idempotent_marker (db : MsgDb) (rtOpt : Option Runtime)
    (uid : Nat) (hone : markerCount db ≤ 1) :
    (finalStepRecorded db = true →
      stop_conversation true db rtOpt uid = some ⟨db, "already_completed", false⟩) ∧
    (finalStepRecorded db = false →
      stop_conversation true db rtOpt uid =
        some ⟨ensure_stop_marker db, "success",
          match rtOpt with
          | some rt => rt.user_id == uid && rt.status == "running"
          | none => false⟩) ∧
    (∀ out, stop_conversation true db rtOpt uid = some out →
      markerCount out.db ≤ 1 ∧
      ∀ out2, stop_conversation true out.db rtOpt uid = some out2 →
        markerCount out2.db ≤ 1) := by
  have hstep : ∀ (d : MsgDb), markerCount d ≤ 1 →
      ∀ out, stop_conversation true d rtOpt uid = some out → markerCount out.db ≤ 1 := by
    intro d hd out hout
    rw [stop_conversation.eq_def, if_pos rfl] at hout
    by_cases hf : finalStepRecorded d
    · rw [if_pos hf] at hout
      obtain rfl : out = ⟨d, "already_completed", false⟩ := by
        exact (Option.some_inj.mp hout).symm
      exact hd
    · rw [if_neg hf] at hout
      have : out.db = ensure_stop_marker d := by
        rw [← Option.some_inj.mp hout]
      rw [this]
      exact markerCount_ensure_le_one d hd
  refine ⟨?_, ?_, ?_⟩
  · intro hf
    rw [stop_conversation.eq_def, if_pos rfl, if_pos hf]
  · intro hf
    rw [stop_conversation.eq_def, if_pos rfl, if_neg (by simp [hf])]
  · intro out hout
    have h1 := hstep db hone out hout
    exact ⟨h1, fun out2 hout2 => hstep out.db h1 out2 hout2⟩

/-- Witness for C5 at a concrete database and runtime. -/
theorem stop_conversation_idempotent_marker_witness :
    (finalStepRecorded [] = true →
      stop_conversation true [] (some rtRunning) 1 =
        some ⟨[], "already_completed", false⟩) ∧
    (finalStepRecorded [] = false →
      stop_conversation true [] (some rtRunning) 1 =
        some ⟨ensure_stop_marker [], "success",
          match some rtRunning with
          | some rt => rt.user_id == 1 && rt.status == "running"
          | none => false⟩) ∧
    (∀ out, stop_conversation true [] (some rtRunning) 1 = some out →
      markerCount out.db ≤ 1 ∧
      ∀ out2, stop_conversation true out.db (some rtRunning) 1 = some out2 →
        markerCount out2.db ≤ 1) :=
  stop_conversation_idempotent_marker [] (some rtRunning) 1 (by decide)

/-! ### Reconnect / replay (C6) -/

/-- C6.  Attaching to an existing, owned Runtime succeeds, adds the new
queue to the listener set, and captures the replay snapshot; the resulting
stream is `ping` first, then — when a step is in progress — one synthesized
`step_start` and, if the accumulated text is non-empty, exactly one
`content` event carrying the entire accumulated text, all before any live
event.  Attach on a missing run, or by a non-owner, fails with no listener
added and no other side effect. -/
theorem reconnect_replay_protocol (reg : List Runtime) (cid uid newq : Nat)
    (live : List Event) :
    (∀ rt, findRuntime reg cid = some rt → rt.user_id = uid →
      stream_conversation_attach reg cid uid newq =
        some ⟨reg.map (fun r =>
                if r.conversation_id == cid then
                  {r with listeners := r.listeners ++ [newq]}
                else r),
              rt.current_step, rt.current_content⟩ ∧
      reconnect_stream rt.current_step rt.current_content live =
        Event.ping ::
          ((match rt.current_step with
            | some s =>
                if s = 0 then []
                else
                  Event.step_start s none none ::
                    (if rt.current_content.isEmpty then []
                     else [Event.content s rt.current_content])
            | none => []) ++ live)) ∧
    (findRuntime reg cid = none →
      stream_conversation_attach reg cid uid newq = none) ∧
    (∀ rt, findRuntime reg cid = some rt → rt.user_id ≠ uid →
      stream_conversation_attach reg cid uid newq = none) := by
  refine ⟨?_, ?_, ?_⟩
  · intro rt hfind hown
    constructor
    · rw [stream_conversation_attach, hfind]
      simp [hown]
    · rw [reconnect_stream, replay_events.eq_def]
      simp
  · intro hfind
    rw [stream_conversation_attach, hfind]
  · intro rt hfind hown
    rw [stream_conversation_attach, hfind]
    simp only [beq_iff_eq]
    rw [if_neg hown]

/-- A runtime mid-step, for the C6 witness. -/
def rtMidStep : Runtime :=
  ⟨1, 7, 0, "running", [3], some 2, "partial text"⟩

/-- Witness for C6 at a concrete registry and snapshot. -/
theorem reconnect_replay_protocol_witness :
    (∀ rt, findRuntime [rtMidStep] 7 = some rt → rt.user_id = 1 →
      stream_conversation_attach [rtMidStep] 7 1 9 =
        some ⟨[rtMidStep].map (fun r =>
                if r.conversation_id == 7 then
                  {r with listeners := r.listeners ++ [9]}
                else r),
              rt.current_step, rt.current_content⟩ ∧
      reconnect_stream rt.current_step rt.current_content [Event.complete] =
        Event.ping ::
          ((match rt.current_step with
            | some s =>
                if s = 0 then []
                else
                  Event.step_start s none none ::
                    (if rt.current_content.isEmpty then []
                     else [Event.content s rt.current_content])
            | none => []) ++ [Event.complete])) ∧
    (findRuntime [rtMidStep] 7 = none →
      stream_conversation_attach [rtMidStep] 7 1 9 = none) ∧
    (∀ rt, findRuntime [rtMidStep] 7 = some rt → rt.user_id ≠ 1 →
      stream_conversation_attach [rtMidStep] 7 1 9 = none) :=
  reconnect_replay_protocol [rtMidStep] 7 1 9 [Event.complete]

/-! ### Terminal-status immutability (C4) -/

/-- Inductive invariant of the status machine: the status is `running` or
terminal; a terminal status implies the task has left its event loop; and a
pending cancellation was requested while running or after eviction. -/
def RunInv (s : RunState) : Prop :=
  (s.status = "running" ∨ terminalStatus s.status) ∧
  (terminalStatus s.status → s.phase ≠ Phase.loop) ∧
  (s.cancelPending = true → s.status = "running" ∨ s.inRegistry = false)

theorem runInv_init : RunInv runInit := by
  refine ⟨Or.inl rfl, fun ht => ?_, fun _ => Or.inl rfl⟩
  rcases ht with h | h | h <;> simp [runInit] at h

theorem terminal_not_running (st : String) (h : terminalStatus st) :
    st ≠ "running" := by
  rcases h with h | h | h <;> (subst h; decide)

theorem runInv_step (s : RunState) (op : RunOp) (h : RunInv s) :
    RunInv (runStep s op) := by
  obtain ⟨h1, h2, h3⟩ := h
  cases op with
  | completeEvent =>
      by_cases hc : s.phase = Phase.loop ∧ s.cancelPending = false
      · rw [runStep, if_pos hc]
        refine ⟨?_, fun _ => by simp, ?_⟩
        · by_cases hr : s.inRegistry = true
          · rw [if_pos hr]
            exact Or.inr (by simp [terminalStatus])
          · rw [if_neg hr]
            simpa using h1
        · intro hp
          simp only at hp
          rw [hc.2] at hp
          exact absurd hp (by simp)
      · rw [runStep, if_neg hc]
        exact ⟨h1, h2, h3⟩
  | errorRaise =>
      by_cases hc : s.phase = Phase.loop ∧ s.cancelPending = false
      · rw [runStep, if_pos hc]
        refine ⟨?_, fun _ => by simp, ?_⟩
        · by_cases hr : s.inRegistry = true
          · rw [if_pos hr]
            exact Or.inr (by simp [terminalStatus])
          · rw [if_neg hr]
            simpa using h1
        · intro hp
          simp only at hp
          rw [hc.2] at hp
          exact absurd hp (by simp)
      · rw [runStep, if_neg hc]
        exact ⟨h1, h2, h3⟩
  | cancelDelivery =>
      by_cases hc : s.cancelPending = true ∧ s.phase ≠ Phase.done
      · rw [runStep, if_pos hc]
        refine ⟨?_, fun _ => by simp, fun hp => by simp at hp⟩
        by_cases hr : s.inRegistry = true
        · rw [if_pos hr]
          exact Or.inr (by simp [terminalStatus])
        · rw [if_neg hr]
          simpa using h1
      · rw [runStep, if_neg hc]
        exact ⟨h1, h2, h3⟩
  | taskFinish =>
      by_cases hc : s.phase = Phase.postComplete ∧ s.cancelPending = false
      · rw [runStep, if_pos hc]
        exact ⟨h1, fun _ => by simp, fun hp => h3 (by simpa using hp)⟩
      · rw [runStep, if_neg hc]
        exact ⟨h1, h2, h3⟩
  | stopRequest =>
      by_cases hc : s.inRegistry = true ∧ s.status = "running" ∧ s.phase ≠ Phase.done
      · rw [runStep, if_pos hc]
        exact ⟨h1, h2, fun _ => Or.inl hc.2.1⟩
      · rw [runStep, if_neg hc]
        exact ⟨h1, h2, h3⟩
  | evictOp =>
      by_cases hc : s.inRegistry = true
      · rw [runStep, if_pos hc]
        exact ⟨h1, h2, fun _ => Or.inr rfl⟩
      · rw [runStep, if_neg hc]
        exact ⟨h1, h2, h3⟩
  | cleanupOp =>
      by_cases hc : s.inRegistry = true ∧ s.status ≠ "running" ∧ s.listenerCount = 0
      · rw [runStep, if_pos hc]
        exact ⟨h1, h2, fun _ => Or.inr rfl⟩
      · rw [runStep, if_neg hc]
        exact ⟨h1, h2, h3⟩
  | attachListener =>
      by_cases hc : s.inRegistry = true
      · rw [runStep, if_pos hc]
        exact ⟨h1, h2, h3⟩
      · rw [runStep, if_neg hc]
        exact ⟨h1, h2, h3⟩
  | detachListener =>
      rw [runStep]
      exact ⟨h1, h2, h3⟩

theorem runReachable_inv (s : RunState) (h : RunReachable s) : RunInv s := by
  induction h with
  | init => exact runInv_init
  | step s op _ ih => exact runInv_step s op ih

/-- In every case of `runStep` the status is either untouched or set to a
terminal value. -/
theorem runStep_status_cases (s : RunState) (op : RunOp) :
    (runStep s op).status = s.status ∨ terminalStatus (runStep s op).status := by
  cases op with
  | completeEvent =>
      by_cases hc : s.phase = Phase.loop ∧ s.cancelPending = false
      · rw [runStep, if_pos hc]
        by_cases hr : s.inRegistry = true
        · rw [if_pos hr]
          exact Or.inr (by simp [terminalStatus])
        · rw [if_neg hr]
          exact Or.inl rfl
      · rw [runStep, if_neg hc]
        exact Or.inl rfl
  | errorRaise =>
      by_cases hc : s.phase = Phase.loop ∧ s.cancelPending = false
      · rw [runStep, if_pos hc]
        by_cases hr : s.inRegistry = true
        · rw [if_pos hr]
          exact Or.inr (by simp [terminalStatus])
        · rw [if_neg hr]
          exact Or.inl rfl
      · rw [runStep, if_neg hc]
        exact Or.inl rfl
  | cancelDelivery =>
      by_cases hc : s.cancelPending = true ∧ s.phase ≠ Phase.done
      · rw [runStep, if_pos hc]
        by_cases hr : s.inRegistry = true
        · rw [if_pos hr]
          exact Or.inr (by simp [terminalStatus])
        · rw [if_neg hr]
          exact Or.inl rfl
      · rw [runStep, if_neg hc]
        exact Or.inl rfl
  | taskFinish =>
      by_cases hc : s.phase = Phase.postComplete ∧ s.cancelPending = false
      · rw [runStep, if_pos hc]
        exact Or.inl rfl
      · rw [runStep, if_neg hc]
        exact Or.inl rfl
  | stopRequest =>
      by_cases hc : s.inRegistry = true ∧ s.status = "running" ∧ s.phase ≠ Phase.done
      · rw [runStep, if_pos hc]
        exact Or.inl rfl
      · rw [runStep, if_neg hc]
        exact Or.inl rfl
  | evictOp =>
      by_cases hc : s.inRegistry = true
      · rw [runStep, if_pos hc]
        exact Or.inl rfl
      · rw [runStep, if_neg hc]
        exact Or.inl rfl
  | cleanupOp =>
      by_cases hc : s.inRegistry = true ∧ s.status ≠ "running" ∧ s.listenerCount = 0
      · rw [runStep, if_pos hc]
        exact Or.inl rfl
      · rw [runStep, if_neg hc]
        exact Or.inl rfl
  | attachListener =>
      by_cases hc : s.inRegistry = true
      · rw [runStep, if_pos hc]
        exact Or.inl rfl
      · rw [runStep, if_neg hc]
        exact Or.inl rfl
  | detachListener =>
      rw [runStep]
      exact Or.inl rfl

/-- C4.  A Runtime starts `running`; in every reachable state, once the
status is terminal no operation — workflow completion, error handling,
cancellation delivery, stop request, eviction, cleanup, listener attach or
detach — changes it again, and any status change at all moves `running` to
a terminal status. -/
theorem status_terminal_immutable (s : RunState) (op : RunOp)
    (hreach : RunReachable s) :
    runInit.status = "running" ∧
    (terminalStatus s.status → (runStep s op).status = s.status) ∧
    ((runStep s op).status ≠ s.status →
      s.status = "running" ∧ terminalStatus (runStep s op).status) := by
  obtain ⟨h1, h2, h3⟩ := runReachable_inv s hreach
  have hfix : terminalStatus s.status → (runStep s op).status = s.status := by
    intro ht
    have hloop : s.phase ≠ Phase.loop := h2 ht
    cases op with
    | completeEvent =>
        rw [runStep, if_neg (fun hcc => hloop hcc.1)]
    | errorRaise =>
        rw [runStep, if_neg (fun hcc => hloop hcc.1)]
    | cancelDelivery =>
        by_cases hc : s.cancelPending = true ∧ s.phase ≠ Phase.done
        · rw [runStep, if_pos hc]
          rcases h3 hc.1 with hrun | hreg
          · exact absurd hrun (terminal_not_running _ ht)
          · rw [if_neg (by simp [hreg])]
        · rw [runStep, if_neg hc]
    | taskFinish =>
        by_cases hc : s.phase = Phase.postComplete ∧ s.cancelPending = false
        · rw [runStep, if_pos hc]
        · rw [runStep, if_neg hc]
    | stopRequest =>
        by_cases hc : s.inRegistry = true ∧ s.status = "running" ∧ s.phase ≠ Phase.done
        · rw [runStep, if_pos hc]
        · rw [runStep, if_neg hc]
    | evictOp =>
        by_cases hc : s.inRegistry = true
        · rw [runStep, if_pos hc]
        · rw [runStep, if_neg hc]
    | cleanupOp =>
        by_cases hc : s.inRegistry = true ∧ s.status ≠ "running" ∧ s.listenerCount = 0
        · rw [runStep, if_pos hc]
        · rw [runStep, if_neg hc]
    | attachListener =>
        by_cases hc : s.inRegistry = true
        · rw [runStep, if_pos hc]
        · rw [runStep, if_neg hc]
    | detachListener => rw [runStep]
  refine ⟨rfl, hfix, ?_⟩
  intro hne
  rcases runStep_status_cases s op with hsame | hterm
  · exact absurd hsame hne
  · refine ⟨?_, hterm⟩
    rcases h1 with hrun | hterm0
    · exact hrun
    · exact absurd (hfix hterm0) hne

/-- Witness for C4: after `complete` the status is terminal and a stop
request leaves it unchanged. -/
theorem status_terminal_immutable_witness :
    runInit.status = "running" ∧
    (terminalStatus (runStep runInit RunOp.completeEvent).status →
      (runStep (runStep runInit RunOp.completeEvent) RunOp.stopRequest).status =
        (runStep runInit RunOp.completeEvent).status) ∧
    ((runStep (runStep runInit RunOp.completeEvent) RunOp.stopRequest).status ≠
        (runStep runInit RunOp.completeEvent).status →
      (runStep runInit RunOp.completeEvent).status = "running" ∧
      terminalStatus
        (runStep (runStep runInit RunOp.completeEvent) RunOp.stopRequest).status) :=
  status_terminal_immutable (runStep runInit RunOp.completeEvent) RunOp.stopRequest
    (RunReachable.step runInit RunOp.completeEvent RunReachable.init)

/-! ### Run start: the initiating listener misses no event (C10) -/

/-- Inductive invariant of the start model: queue 0 has received exactly
what was broadcast, and from the moment the critical section has added the
listener (pc ≥ 3) queue 0 is registered. -/
def StartInv (s : StartState) : Prop :=
  s.received = s.broadcastLog ∧ (3 ≤ s.admPc → 0 ∈ s.listeners)

theorem startInv_init : StartInv startInit :=
  ⟨rfl, fun h => by simp [startInit] at h⟩

theorem startInv_step (s t : StartState) (hst : StartStep s t) (h : StartInv s) :
    StartInv t := by
  obtain ⟨h1, h2⟩ := h
  cases hst with
  | admCreateTask hpc => exact ⟨h1, fun hx => by simp at hx⟩
  | admRegister hpc => exact ⟨h1, fun hx => by simp at hx⟩
  | admAddListener hpc => exact ⟨h1, fun _ => by simp⟩
  | admReleaseLock hpc => exact ⟨h1, fun _ => h2 (by omega)⟩
  | bcast e hpc htask hregd =>
      have hmem : 0 ∈ s.listeners := h2 (by omega)
      refine ⟨?_, fun _ => hmem⟩
      simp only [hmem, if_pos, h1]

theorem startReachable_inv (s : StartState) (h : StartReachable s) : StartInv s := by
  induction h with
  | init => exact startInv_init
  | step s t _ hst ih => exact startInv_step s t hst ih

/-- C10.  The initiating viewer's queue is added inside the same lock-guarded
critical section that spawns the task and registers the Runtime; since a
broadcast can only run once that section has released the lock, in every
reachable state queue 0 has received exactly the events broadcast so far —
it misses none for late registration. -/
theorem initial_listener_receives_all (s : StartState)
    (hreach : StartReachable s) :
    s.received = s.broadcastLog ∧ (3 ≤ s.admPc → 0 ∈ s.listeners) :=
  startReachable_inv s hreach

/-- Witness for C10: the state after the full critical section and one
broadcast step. -/
theorem initial_listener_receives_all_witness :
    ({ admPc := 4, taskSpawned := true, registered := true, listeners := [0]
       broadcastLog := [Event.complete], received := [Event.complete] } :
        StartState).received =
      ({ admPc := 4, taskSpawned := true, registered := true, listeners := [0]
         broadcastLog := [Event.complete], received := [Event.complete] } :
          StartState).broadcastLog ∧
    (3 ≤ ({ admPc := 4, taskSpawned := true, registered := true, listeners := [0]
            broadcastLog := [Event.complete], received := [Event.complete] } :
              StartState).admPc →
      0 ∈ ({ admPc := 4, taskSpawned := true, registered := true, listeners := [0]
             broadcastLog := [Event.complete], received := [Event.complete] } :
               StartState).listeners) :=
  initial_listener_receives_all _ (by
    have h0 : StartReachable startInit := StartReachable.init
    have h1 : StartReachable
        { admPc := 1, taskSpawned := true, registered := false, listeners := []
          broadcastLog := [], received := [] } := by
      have := StartReachable.step _ _ h0 (StartStep.admCreateTask startInit rfl)
      simpa [startInit] using this
    have h2 : StartReachable
        { admPc := 2, taskSpawned := true, registered := true, listeners := []
          broadcastLog := [], received := [] } := by
      have := StartReachable.step _ _ h1 (StartStep.admRegister _ rfl)
      simpa using this
    have h3 : StartReachable
        { admPc := 3, taskSpawned := true, registered := true, listeners := [0]
          broadcastLog := [], received := [] } := by
      have := StartReachable.step _ _ h2 (StartStep.admAddListener _ rfl)
      simpa using this
    have h4 : StartReachable
        { admPc := 4, taskSpawned := true, registered := true, listeners := [0]
          broadcastLog := [], received := [] } := by
      have := StartReachable.step _ _ h3 (StartStep.admReleaseLock _ rfl)
      simpa using this
    have h5 := StartReachable.step _ _ h4
      (StartStep.bcast _ Event.complete rfl rfl rfl)
    simpa using h5)

end ResumeConsultant
